import Mathlib

/-!
Verification of the NBON codec (src/cpp/include/nbon.h) against its
natural-language specification.

The byte stream is modelled as a `List Nat` (each element one byte; the
writer only ever emits values below 256).  Machine integers are modelled
as `Nat`/`Int` with explicit `% 2 ^ 64` where C++ unsigned overflow
matters.  Reader routines are cursor-passing functions
`List Nat → Except Err (α × List Nat)`; C++ exceptions become the
`Except.error` branch.  The `ready_` re-entrancy flag is modelled in the
`Writer` state machine below (the reader claims only ever exercise
readers in the Ready state, so the reader parsing functions model
operation on a Ready handle, where `checkReady` is a no-op).
-/

namespace NBON

/-- Byte streams: one `Nat` per byte. -/
abbrev Bytes := List Nat

/-- The two exception classes of nbon.h: `LogicError` (API misuse) and
`ParseError` (malformed input, with its message).  `outOfFuel` is an
artifact of the fuel-indexed embedding of the recursive `skip`; the
theorems below show it never arises once the fuel is at least the length
of the encoded value. -/
inductive Err where
  | logicError
  | parseError (msg : String)
  | outOfFuel
  deriving DecidableEq

instance {ε α : Type} [DecidableEq ε] [DecidableEq α] :
    DecidableEq (Except ε α) := fun x y =>
  match x, y with
  | .ok a, .ok b =>
    if h : a = b then .isTrue (by rw [h]) else .isFalse (by simp [h])
  | .error a, .error b =>
    if h : a = b then .isTrue (by rw [h]) else .isFalse (by simp [h])
  | .ok _, .error _ => .isFalse (by simp)
  | .error _, .ok _ => .isFalse (by simp)

/-! ### Writer: pure byte emission (`nbon.h` lines 51-180)

Each `write*` function below returns the list of bytes the corresponding
`Writer::write*` member emits into the `std::ostream`.  The `checkReady`
guard is modelled separately in the `Writer` state machine further down.
-/

/-- Loop body of `Writer::writeLEB128` (lines 174-180): emit the low 7
bits with the continuation bit, then shift right by 7, while nonzero.
The do-while loop runs at most 10 times for a `uint64_t` argument, so it
is embedded with a group counter of 10 (`writeLEB128` below); this keeps
the definition structurally recursive.  For `num < 2 ^ 64` the result is
exactly the bytes of the C++ loop. -/
def writeLEB128Go : Nat → Nat → List Nat
  | 0, _ => []
  | g + 1, num =>
    let byte := (if num > 0x7f then 0x80 else 0) ||| (num &&& 0x7f)
    if num >>> 7 = 0 then [byte]
    else byte :: writeLEB128Go g (num >>> 7)

/-- `Writer::writeLEB128(uint64_t num)`: little-endian base-128 groups,
high bit of each byte a continuation flag, clear only on the last. -/
def writeLEB128 (num : Nat) : List Nat :=
  writeLEB128Go 10 num

/-- Number of 7-bit groups of the base-128 representation of `n` (the
"values requiring exactly k groups" of the spec): the digit count of `n`
in base 128, at least one. -/
def base128Groups (n : Nat) : Nat :=
  if n < 128 then 1 else 1 + base128Groups (n / 128)
decreasing_by exact Nat.div_lt_self (by omega) (by norm_num)

/-- `Writer::writeInt(int64_t num)` (lines 123-138): `INT64_MIN` is
special-cased (its magnitude `(uint64_t)INT64_MAX + 1 = 2 ^ 63` is formed
in unsigned arithmetic); other negatives emit `'-'` and the varint of the
magnitude; 0..9 emit one ASCII digit; the rest emit `'+'` and a varint. -/
def writeInt (num : Int) : List Nat :=
  if num = -(2 ^ 63) then 0x2d :: writeLEB128 (2 ^ 63)
  else if num < 0 then 0x2d :: writeLEB128 (-num).toNat
  else if num ≤ 9 then [(0x30 + num).toNat]
  else 0x2b :: writeLEB128 num.toNat

/-- `Writer::writeUInt(uint64_t num)` (lines 140-149). -/
def writeUInt (num : Nat) : List Nat :=
  if num ≤ 9 then [0x30 + num]
  else 0x2b :: writeLEB128 num

/-- `Writer::writeFloat` (lines 81-94), acting on the IEEE754 bit pattern
`bits` that `std::memcpy` extracts from the `float`: tag `'f'` then the
four bytes of the pattern, little-endian, by mask-and-shift. -/
def writeFloat (bits : Nat) : List Nat :=
  [0x66,
   (bits &&& 0x000000ff) >>> 0,
   (bits &&& 0x0000ff00) >>> 8,
   (bits &&& 0x00ff0000) >>> 16,
   (bits &&& 0xff000000) >>> 24]

/-- `Writer::writeDouble` (lines 96-113), acting on the IEEE754 bit
pattern `bits` that `std::memcpy` extracts from the `double`. -/
def writeDouble (bits : Nat) : List Nat :=
  [0x64,
   (bits &&& 0x00000000000000ff) >>> 0,
   (bits &&& 0x000000000000ff00) >>> 8,
   (bits &&& 0x0000000000ff0000) >>> 16,
   (bits &&& 0x00000000ff000000) >>> 24,
   (bits &&& 0x000000ff00000000) >>> 32,
   (bits &&& 0x0000ff0000000000) >>> 40,
   (bits &&& 0x00ff000000000000) >>> 48,
   (bits &&& 0xff00000000000000) >>> 56]

/-- `Writer::writeString` (lines 75-79): tag `'S'`, the content bytes,
then a NUL terminator. -/
def writeString (s : List Nat) : List Nat :=
  0x53 :: s ++ [0]

/-- `Writer::writeBinary` (lines 115-121): tag `'B'`, the varint-encoded
length, then the raw bytes. -/
def writeBinary (data : List Nat) : List Nat :=
  0x42 :: writeLEB128 data.length ++ data

/-! ### Reader: cursor-passing parsers (`nbon.h` lines 241-613)

A reader is a forward-only cursor; we model it by passing the remaining
byte list through each operation.  `is_->get()`/`next()` consume a byte,
`is_->peek()` does not.  `Reader::next` throws a ParseError on EOF;
`is_->get()` returns EOF (-1), which then fails the subsequent tag
comparison with the tag-specific ParseError message (apostrophes of the
C++ message texts are dropped). -/

/-- `Reader::next` (lines 537-544): read one byte, ParseError on EOF. -/
def next : Bytes → Except Err (Nat × Bytes)
  | [] => .error (.parseError "Unexpected EOF")
  | b :: rest => .ok (b, rest)

/-- `is_->peek()`: look at the next byte without consuming; `none` is EOF. -/
def peek : Bytes → Option Nat
  | [] => none
  | b :: _ => some b

/-- The `nbon::Type` enumeration (lines 198-209). -/
inductive NType where
  | bool | nil | string | binary | float | double | int | uint | array | object
  deriving DecidableEq

/-- `Reader::getType` (lines 250-281): classify the next byte without
consuming it. -/
def getType (input : Bytes) : Except Err NType :=
  match peek input with
  | Option.none => .error (.parseError "Unexpected EOF")
  | Option.some ch =>
    if ch = 0x54 ∨ ch = 0x46 then .ok .bool
    else if ch = 0x4e then .ok .nil
    else if ch = 0x66 then .ok .float
    else if ch = 0x64 then .ok .double
    else if ch = 0x53 then .ok .string
    else if ch = 0x42 then .ok .binary
    else if ch = 0x2b ∨ (0x30 ≤ ch ∧ ch ≤ 0x39) then .ok .uint
    else if ch = 0x2d then .ok .int
    else if ch = 0x5b then .ok .array
    else if ch = 0x7b then .ok .object
    else .error (.parseError "Unexpected character")

/-- `Reader::getBool` (lines 283-294). -/
def getBool : Bytes → Except Err (Bool × Bytes)
  | [] => .error (.parseError "getBool: Expected T or F")
  | ch :: rest =>
    if ch = 0x54 then .ok (true, rest)
    else if ch = 0x46 then .ok (false, rest)
    else .error (.parseError "getBool: Expected T or F")

/-- `Reader::getNil` (lines 296-302). -/
def getNil : Bytes → Except Err Bytes
  | [] => .error (.parseError "skipNil: Expected N")
  | ch :: rest =>
    if ch = 0x4e then .ok rest
    else .error (.parseError "skipNil: Expected N")

/-- Loop of `Reader::getString` (lines 311-315): accumulate bytes until a
NUL, which is consumed but not included. -/
def getStringLoop : Bytes → Except Err (List Nat × Bytes)
  | [] => .error (.parseError "Unexpected EOF")
  | ch :: rest =>
    if ch = 0 then .ok ([], rest)
    else
      match getStringLoop rest with
      | .ok (s, r) => .ok (ch :: s, r)
      | .error e => .error e

/-- `Reader::getString` (lines 304-316). -/
def getString : Bytes → Except Err (List Nat × Bytes)
  | [] => .error (.parseError "getString: Expected S")
  | ch :: rest =>
    if ch = 0x53 then getStringLoop rest
    else .error (.parseError "getString: Expected S")

/-- Loop of `Reader::skipString` (line 331): `while (next());`. -/
def skipStringLoop : Bytes → Except Err Bytes
  | [] => .error (.parseError "Unexpected EOF")
  | ch :: rest =>
    if ch = 0 then .ok rest
    else skipStringLoop rest

/-- `Reader::skipString` (lines 324-332). -/
def skipString : Bytes → Except Err Bytes
  | [] => .error (.parseError "skipString: Expected S")
  | ch :: rest =>
    if ch = 0x53 then skipStringLoop rest
    else .error (.parseError "skipString: Expected S")

/-- Loop of `Reader::nextLEB128` (lines 546-556): the accumulator is a
`uint64_t`, hence the `% 2 ^ 64`; `(ch & 0x7f)` keeps the low seven bits
of the byte (the `(unsigned char)` cast is `% 256`, absorbed by the
mask); the loop continues while the continuation bit is set. -/
def nextLEB128Loop : Bytes → Nat → Nat → Except Err (Nat × Bytes)
  | [], _, _ => .error (.parseError "Unexpected EOF")
  | ch :: rest, num, shift =>
    let num' := (num ||| ((ch % 256 &&& 0x7f) <<< shift)) % 2 ^ 64
    if ch % 256 ≥ 0x80 then nextLEB128Loop rest num' (shift + 7)
    else .ok (num', rest)

/-- `Reader::nextLEB128` (lines 546-556). -/
def nextLEB128 (input : Bytes) : Except Err (Nat × Bytes) :=
  nextLEB128Loop input 0 0

/-- Read exactly `n` payload bytes, as the loop of `Reader::getBinary`
(lines 343-346) does via repeated `next()`. -/
def readN : Nat → Bytes → Except Err (List Nat × Bytes)
  | 0, input => .ok ([], input)
  | n + 1, input =>
    match next input with
    | .error e => .error e
    | .ok (b, rest) =>
      match readN n rest with
      | .ok (bs, r) => .ok (b :: bs, r)
      | .error e => .error e

/-- Discard exactly `n` payload bytes, as the loop of
`Reader::skipBinary` (lines 363-366) does. -/
def skipN : Nat → Bytes → Except Err Bytes
  | 0, input => .ok input
  | n + 1, input =>
    match next input with
    | .error e => .error e
    | .ok (_, rest) => skipN n rest

/-- `Reader::getBinary` (lines 334-347): tag `'B'`, varint length, then
exactly that many raw bytes. -/
def getBinary : Bytes → Except Err (List Nat × Bytes)
  | [] => .error (.parseError "getString: Expected B")
  | ch :: rest =>
    if ch = 0x42 then
      match nextLEB128 rest with
      | .error e => .error e
      | .ok (size, r) => readN size r
    else .error (.parseError "getString: Expected B")

/-- `Reader::skipBinary` (lines 355-367). -/
def skipBinary : Bytes → Except Err Bytes
  | [] => .error (.parseError "skipBinary: Expected B")
  | ch :: rest =>
    if ch = 0x42 then
      match nextLEB128 rest with
      | .error e => .error e
      | .ok (size, r) => skipN size r
    else .error (.parseError "skipBinary: Expected B")

/-- `Reader::getFloat` (lines 369-388), returning the reassembled 32-bit
pattern (the final `std::memcpy` into a `float` is a bit-level
identity).  Each byte is `(unsigned char)`-cast, i.e. `% 256`. -/
def getFloat : Bytes → Except Err (Nat × Bytes)
  | [] => .error (.parseError "nextFloat: Expected f")
  | ch :: rest =>
    if ch = 0x66 then
      match next rest with
      | .error e => .error e
      | .ok (b0, r0) =>
        match next r0 with
        | .error e => .error e
        | .ok (b1, r1) =>
          match next r1 with
          | .error e => .error e
          | .ok (b2, r2) =>
            match next r2 with
            | .error e => .error e
            | .ok (b3, r3) =>
              let n := 0 ||| ((b0 % 256) <<< 0) ||| ((b1 % 256) <<< 8)
                ||| ((b2 % 256) <<< 16) ||| ((b3 % 256) <<< 24)
              .ok (n, r3)
    else .error (.parseError "nextFloat: Expected f")

/-- `Reader::getDouble` (lines 390-413), returning the reassembled 64-bit
pattern. -/
def getDouble : Bytes → Except Err (Nat × Bytes)
  | [] => .error (.parseError "nextDouble: Expected d")
  | ch :: rest =>
    if ch = 0x64 then
      match next rest with
      | .error e => .error e
      | .ok (b0, r0) =>
        match next r0 with
        | .error e => .error e
        | .ok (b1, r1) =>
          match next r1 with
          | .error e => .error e
          | .ok (b2, r2) =>
            match next r2 with
            | .error e => .error e
            | .ok (b3, r3) =>
              match next r3 with
              | .error e => .error e
              | .ok (b4, r4) =>
                match next r4 with
                | .error e => .error e
                | .ok (b5, r5) =>
                  match next r5 with
                  | .error e => .error e
                  | .ok (b6, r6) =>
                    match next r6 with
                    | .error e => .error e
                    | .ok (b7, r7) =>
                      let n := 0 ||| ((b0 % 256) <<< 0) ||| ((b1 % 256) <<< 8)
                        ||| ((b2 % 256) <<< 16) ||| ((b3 % 256) <<< 24)
                        ||| ((b4 % 256) <<< 32) ||| ((b5 % 256) <<< 40)
                        ||| ((b6 % 256) <<< 48) ||| ((b7 % 256) <<< 56)
                      .ok (n, r7)
    else .error (.parseError "nextDouble: Expected d")

/-- Conversion of a `uint64_t` value to `int64_t` (twos complement), as
performed by the implicit conversions in `Reader::getInt`. -/
def toInt64 (m : Nat) : Int :=
  if m < 2 ^ 63 then (m : Int) else (m : Int) - 2 ^ 64

/-- `Reader::getInt` (lines 415-428).  A digit byte is its own value; a
`'+'` tag yields the varint magnitude converted `uint64_t → int64_t`; a
`'-'` tag yields `-nextLEB128()`, i.e. unsigned 64-bit negation of the
magnitude followed by the same conversion. -/
def getInt (input : Bytes) : Except Err (Int × Bytes) :=
  match next input with
  | .error e => .error e
  | .ok (ch, rest) =>
    if 0x30 ≤ ch ∧ ch ≤ 0x39 then .ok (((ch : Int) - 0x30, rest))
    else if ch = 0x2b then
      match nextLEB128 rest with
      | .error e => .error e
      | .ok (m, r) => .ok (toInt64 m, r)
    else if ch = 0x2d then
      match nextLEB128 rest with
      | .error e => .error e
      | .ok (m, r) => .ok (toInt64 ((2 ^ 64 - m) % 2 ^ 64), r)
    else .error (.parseError "getInt: Expected digit, plus or minus")

/-- `Reader::getUInt` (lines 430-441). -/
def getUInt (input : Bytes) : Except Err (Nat × Bytes) :=
  match next input with
  | .error e => .error e
  | .ok (ch, rest) =>
    if 0x30 ≤ ch ∧ ch ≤ 0x39 then .ok ((ch - 0x30, rest))
    else if ch = 0x2b then nextLEB128 rest
    else .error (.parseError "getInt: Expected digit or plus")

/-- `ArrayReader::hasNext` (lines 568-571): the next byte exists and is
not the array closer. -/
def arrayHasNext (input : Bytes) : Bool :=
  match peek input with
  | Option.none => false
  | Option.some c => c != 0x5d

/-- `ObjectReader::hasNext` (lines 585-588). -/
def objectHasNext (input : Bytes) : Bool :=
  match peek input with
  | Option.none => false
  | Option.some c => c != 0x7d

/-- Key phase of `ObjectReader::next` (lines 590-604): read bytes up to
and including a NUL; EOF before the NUL is a ParseError. -/
def readKey : Bytes → Except Err (List Nat × Bytes)
  | [] => .error (.parseError "ObjectReader::next: Unexpected EOF")
  | ch :: rest =>
    if ch = 0 then .ok ([], rest)
    else
      match readKey rest with
      | .ok (k, r) => .ok (ch :: k, r)
      | .error e => .error e

/-- `Reader::getArray` (lines 443-461) with an arbitrary callback acting
on the bytes of the scope: consume `'['`, run the callback, then consume
the `']'` closer — the closer is not consumed when the callback throws,
since the C++ exception propagates out of `getArray` first. -/
def getArrayOp (func : Bytes → Except Err Bytes) (input : Bytes) :
    Except Err Bytes :=
  match next input with
  | .error e => .error e
  | .ok (ch, rest) =>
    if ch = 0x5b then
      match func rest with
      | .error e => .error e
      | .ok rest2 =>
        match next rest2 with
        | .error e => .error e
        | .ok (ch2, rest3) =>
          if ch2 = 0x5d then .ok rest3
          else .error (.parseError "getArray: Expected close bracket")
    else .error (.parseError "getArray: Expected open bracket")

/-- `Reader::getObject` (lines 470-488) with an arbitrary callback. -/
def getObjectOp (func : Bytes → Except Err Bytes) (input : Bytes) :
    Except Err Bytes :=
  match next input with
  | .error e => .error e
  | .ok (ch, rest) =>
    if ch = 0x7b then
      match func rest with
      | .error e => .error e
      | .ok rest2 =>
        match next rest2 with
        | .error e => .error e
        | .ok (ch2, rest3) =>
          if ch2 = 0x7d then .ok rest3
          else .error (.parseError "getObject: Expected close brace")
    else .error (.parseError "getObject: Expected open brace")

/-! ### Abstract values, their encoding and validity (spec section 3)

`Value` is the abstract value variant; `encode` is the byte sequence the
writer emits for it (assembled from the pure `write*` functions above,
containers per `Writer::writeArray` / `writeObject` / `ObjectWriter::key`:
`'['` elements `']'`, and `'{'` (key NUL value)* `'}'`). -/

inductive Value where
  | bool (b : Bool)
  | nil
  | str (s : List Nat)
  | bin (data : List Nat)
  | flt (bits : Nat)
  | dbl (bits : Nat)
  | int (n : Int)
  | uint (n : Nat)
  | arr (elems : List Value)
  | obj (entries : List (List Nat × Value))

mutual

/-- Bytes the writer emits for one value. -/
def encode : Value → List Nat
  | .bool true => [0x54]
  | .bool false => [0x46]
  | .nil => [0x4e]
  | .str s => writeString s
  | .bin data => writeBinary data
  | .flt bits => writeFloat bits
  | .dbl bits => writeDouble bits
  | .int n => writeInt n
  | .uint n => writeUInt n
  | .arr es => 0x5b :: encodeList es ++ [0x5d]
  | .obj es => 0x7b :: encodeEntries es ++ [0x7d]

/-- Bytes of the elements of an array scope, in order. -/
def encodeList : List Value → List Nat
  | [] => []
  | v :: vs => encode v ++ encodeList vs

/-- Bytes of the entries of an object scope: NUL-terminated key
(`ObjectWriter::key`, lines 192-196) then the value. -/
def encodeEntries : List (List Nat × Value) → List Nat
  | [] => []
  | (k, v) :: es => k ++ [0] ++ encode v ++ encodeEntries es

end

/-- Wellformedness of an object key: bytes (below 256), no NUL (NUL is
the key terminator), and not starting with the object closer `'}'`
(a leading `'}'` would make `ObjectReader::hasNext` mistake the entry
for the end of the object). -/
def validKey (k : List Nat) : Bool :=
  k.all (fun b => b != 0 && decide (b < 256)) && k.head? != some 0x7d

mutual

/-- Wellformedness of a value: strings are NUL-free byte sequences,
binary is a byte sequence of `size_t`/`uint64_t` length, float/double
bit patterns fit 32/64 bits, integers fit `int64_t`/`uint64_t`, and
containers are wellformed recursively. -/
def valid : Value → Bool
  | .bool _ => true
  | .nil => true
  | .str s => s.all (fun b => b != 0 && decide (b < 256))
  | .bin data => decide (data.length < 2 ^ 64) && data.all (fun b => decide (b < 256))
  | .flt bits => decide (bits < 2 ^ 32)
  | .dbl bits => decide (bits < 2 ^ 64)
  | .int n => decide (-(2 ^ 63) ≤ n) && decide (n < 2 ^ 63)
  | .uint n => decide (n < 2 ^ 64)
  | .arr es => validList es
  | .obj es => validEntries es

/-- Wellformedness of array elements. -/
def validList : List Value → Bool
  | [] => true
  | v :: vs => valid v && validList vs

/-- Wellformedness of object entries. -/
def validEntries : List (List Nat × Value) → Bool
  | [] => true
  | (k, v) :: es => validKey k && valid v && validEntries es

end

/-! ### The generic `skip` and the generic decode (`nbon.h` lines 497-534)

`Reader::skip` dispatches on `getType` and discards one value, recursing
into containers through `readArray`/`readObject` (`ArrayReader::all` /
`ObjectReader::all` iteration).  The recursion is embedded with a fuel
parameter that decreases on every nested value and every loop iteration;
`skip_encode` below shows fuel `(encode v).length` always suffices, so
`Err.outOfFuel` is unreachable on the inputs the claims quantify over. -/

mutual

/-- `Reader::skip`. -/
def skipFuel : Nat → Bytes → Except Err Bytes
  | 0, _ => .error .outOfFuel
  | fuel + 1, input =>
    match getType input with
    | .error e => .error e
    | .ok .bool => (getBool input).map Prod.snd
    | .ok .nil => getNil input
    | .ok .string => skipString input
    | .ok .binary => skipBinary input
    | .ok .float => (getFloat input).map Prod.snd
    | .ok .double => (getDouble input).map Prod.snd
    | .ok .int => (getInt input).map Prod.snd
    | .ok .uint => (getUInt input).map Prod.snd
    | .ok .array =>
      match next input with
      | .error e => .error e
      | .ok (ch, rest) =>
        if ch = 0x5b then
          match skipArrLoop fuel rest with
          | .error e => .error e
          | .ok rest2 =>
            match next rest2 with
            | .error e => .error e
            | .ok (ch2, rest3) =>
              if ch2 = 0x5d then .ok rest3
              else .error (.parseError "getArray: Expected close bracket")
        else .error (.parseError "getArray: Expected open bracket")
    | .ok .object =>
      match next input with
      | .error e => .error e
      | .ok (ch, rest) =>
        if ch = 0x7b then
          match skipObjLoop fuel rest with
          | .error e => .error e
          | .ok rest2 =>
            match next rest2 with
            | .error e => .error e
            | .ok (ch2, rest3) =>
              if ch2 = 0x7d then .ok rest3
              else .error (.parseError "getObject: Expected close brace")
        else .error (.parseError "getObject: Expected open brace")

/-- `ArrayReader::all` iteration inside `Reader::skip`: while `hasNext`,
skip one element. -/
def skipArrLoop : Nat → Bytes → Except Err Bytes
  | 0, _ => .error .outOfFuel
  | fuel + 1, input =>
    if arrayHasNext input then
      match skipFuel fuel input with
      | .error e => .error e
      | .ok rest => skipArrLoop fuel rest
    else .ok input

/-- `ObjectReader::all` iteration inside `Reader::skip`: while `hasNext`,
read the key, then skip the value. -/
def skipObjLoop : Nat → Bytes → Except Err Bytes
  | 0, _ => .error .outOfFuel
  | fuel + 1, input =>
    if objectHasNext input then
      match readKey input with
      | .error e => .error e
      | .ok (_, rest) =>
        match skipFuel fuel rest with
        | .error e => .error e
        | .ok rest2 => skipObjLoop fuel rest2
    else .ok input

end

mutual

/-- Full generic decode of one value: the same `getType` dispatch as
`Reader::skip`, but invoking the materialising `get` routine of each
type (`getString`/`getBinary` instead of the skip variants), and
collecting container contents through the same `all` iteration.  This is
the "fully decoding with the matching get/read routine" of the spec. -/
def readValueFuel : Nat → Bytes → Except Err (Value × Bytes)
  | 0, _ => .error .outOfFuel
  | fuel + 1, input =>
    match getType input with
    | .error e => .error e
    | .ok .bool => (getBool input).map (fun p => (.bool p.1, p.2))
    | .ok .nil => (getNil input).map (fun r => (.nil, r))
    | .ok .string => (getString input).map (fun p => (.str p.1, p.2))
    | .ok .binary => (getBinary input).map (fun p => (.bin p.1, p.2))
    | .ok .float => (getFloat input).map (fun p => (.flt p.1, p.2))
    | .ok .double => (getDouble input).map (fun p => (.dbl p.1, p.2))
    | .ok .int => (getInt input).map (fun p => (.int p.1, p.2))
    | .ok .uint => (getUInt input).map (fun p => (.uint p.1, p.2))
    | .ok .array =>
      match next input with
      | .error e => .error e
      | .ok (ch, rest) =>
        if ch = 0x5b then
          match readArrLoop fuel rest with
          | .error e => .error e
          | .ok (vs, rest2) =>
            match next rest2 with
            | .error e => .error e
            | .ok (ch2, rest3) =>
              if ch2 = 0x5d then .ok (.arr vs, rest3)
              else .error (.parseError "getArray: Expected close bracket")
        else .error (.parseError "getArray: Expected open bracket")
    | .ok .object =>
      match next input with
      | .error e => .error e
      | .ok (ch, rest) =>
        if ch = 0x7b then
          match readObjLoop fuel rest with
          | .error e => .error e
          | .ok (es, rest2) =>
            match next rest2 with
            | .error e => .error e
            | .ok (ch2, rest3) =>
              if ch2 = 0x7d then .ok (.obj es, rest3)
              else .error (.parseError "getObject: Expected close brace")
        else .error (.parseError "getObject: Expected open brace")

/-- Array iteration of the generic decode. -/
def readArrLoop : Nat → Bytes → Except Err (List Value × Bytes)
  | 0, _ => .error .outOfFuel
  | fuel + 1, input =>
    if arrayHasNext input then
      match readValueFuel fuel input with
      | .error e => .error e
      | .ok (v, rest) =>
        match readArrLoop fuel rest with
        | .error e => .error e
        | .ok (vs, r) => .ok (v :: vs, r)
    else .ok ([], input)

/-- Object iteration of the generic decode. -/
def readObjLoop : Nat → Bytes → Except Err (List (List Nat × Value) × Bytes)
  | 0, _ => .error .outOfFuel
  | fuel + 1, input =>
    if objectHasNext input then
      match readKey input with
      | .error e => .error e
      | .ok (k, rest) =>
        match readValueFuel fuel rest with
        | .error e => .error e
        | .ok (v, rest2) =>
          match readObjLoop fuel rest2 with
          | .error e => .error e
          | .ok (es, r) => .ok ((k, v) :: es, r)
    else .ok ([], input)

end

/-! ### The Writer state machine (`nbon.h` lines 46-190)

A `Writer` handle owns a `ready_` flag and borrows the shared output
stream.  `WState` couples the bytes already in the stream with the
`ready_` flag of the handle under consideration.  Every operation first
runs `checkReady` (lines 182-186): on a suspended handle it throws
`LogicError` before anything is emitted.  `writeArray`/`writeObject`
(lines 151-171) emit the opener, clear `ready_`, run the callback, and
only on its normal return restore `ready_` and emit the closer — a C++
exception from the callback propagates first, so the closer is never
written on that path.  The callback parameter is an arbitrary function
on the state; the misuse scenario of the spec (and of the repository
test) is the callback operating on the suspended parent handle, which
is exactly the state it is handed here. -/

structure WState where
  out : Bytes
  ready : Bool
  deriving DecidableEq

/-- The scalar write operations of `Writer`, with their arguments
(float/double again by bit pattern). -/
inductive ScalarOp where
  | wTrue
  | wFalse
  | wBool (b : Bool)
  | wNull
  | wString (s : List Nat)
  | wFloat (bits : Nat)
  | wDouble (bits : Nat)
  | wBinary (data : List Nat)
  | wInt (n : Int)
  | wUInt (n : Nat)

/-- `Writer::writeTrue` (lines 51-55). -/
def writeTrueOp (s : WState) : Except Err Unit × WState :=
  if !s.ready then (.error .logicError, s)
  else (.ok (), ⟨s.out ++ [0x54], s.ready⟩)

/-- `Writer::writeFalse` (lines 57-61). -/
def writeFalseOp (s : WState) : Except Err Unit × WState :=
  if !s.ready then (.error .logicError, s)
  else (.ok (), ⟨s.out ++ [0x46], s.ready⟩)

/-- `Writer::writeBool` (lines 63-67): `checkReady`, then delegate. -/
def writeBoolOp (b : Bool) (s : WState) : Except Err Unit × WState :=
  if !s.ready then (.error .logicError, s)
  else if b then writeTrueOp s else writeFalseOp s

/-- `Writer::writeNull` (lines 69-73). -/
def writeNullOp (s : WState) : Except Err Unit × WState :=
  if !s.ready then (.error .logicError, s)
  else (.ok (), ⟨s.out ++ [0x4e], s.ready⟩)

/-- `Writer::writeString` (lines 75-79). -/
def writeStringOp (str : List Nat) (s : WState) : Except Err Unit × WState :=
  if !s.ready then (.error .logicError, s)
  else (.ok (), ⟨s.out ++ writeString str, s.ready⟩)

/-- `Writer::writeFloat` (lines 81-94). -/
def writeFloatOp (bits : Nat) (s : WState) : Except Err Unit × WState :=
  if !s.ready then (.error .logicError, s)
  else (.ok (), ⟨s.out ++ writeFloat bits, s.ready⟩)

/-- `Writer::writeDouble` (lines 96-113). -/
def writeDoubleOp (bits : Nat) (s : WState) : Except Err Unit × WState :=
  if !s.ready then (.error .logicError, s)
  else (.ok (), ⟨s.out ++ writeDouble bits, s.ready⟩)

/-- `Writer::writeBinary` (lines 115-121). -/
def writeBinaryOp (data : List Nat) (s : WState) : Except Err Unit × WState :=
  if !s.ready then (.error .logicError, s)
  else (.ok (), ⟨s.out ++ writeBinary data, s.ready⟩)

/-- `Writer::writeInt` (lines 123-138). -/
def writeIntOp (n : Int) (s : WState) : Except Err Unit × WState :=
  if !s.ready then (.error .logicError, s)
  else (.ok (), ⟨s.out ++ writeInt n, s.ready⟩)

/-- `Writer::writeUInt` (lines 140-149). -/
def writeUIntOp (n : Nat) (s : WState) : Except Err Unit × WState :=
  if !s.ready then (.error .logicError, s)
  else (.ok (), ⟨s.out ++ writeUInt n, s.ready⟩)

/-- Dispatch a scalar operation. -/
def runScalar : ScalarOp → WState → Except Err Unit × WState
  | .wTrue => writeTrueOp
  | .wFalse => writeFalseOp
  | .wBool b => writeBoolOp b
  | .wNull => writeNullOp
  | .wString str => writeStringOp str
  | .wFloat bits => writeFloatOp bits
  | .wDouble bits => writeDoubleOp bits
  | .wBinary data => writeBinaryOp data
  | .wInt n => writeIntOp n
  | .wUInt n => writeUIntOp n

/-- `Writer::writeArray` (lines 151-160): `checkReady`; emit `'['`;
suspend the handle; run the callback; on its normal return restore
`ready_` and emit `']'`; on an exception from the callback, propagate it
as-is (the closer is not emitted and the handle stays suspended). -/
def writeArrayOp (func : WState → Except Err Unit × WState) (s : WState) :
    Except Err Unit × WState :=
  if !s.ready then (.error .logicError, s)
  else
    match func ⟨s.out ++ [0x5b], false⟩ with
    | (.ok _, s2) => (.ok (), ⟨s2.out ++ [0x5d], true⟩)
    | (.error e, s2) => (.error e, s2)

/-- `Writer::writeObject` (lines 162-171). -/
def writeObjectOp (func : WState → Except Err Unit × WState) (s : WState) :
    Except Err Unit × WState :=
  if !s.ready then (.error .logicError, s)
  else
    match func ⟨s.out ++ [0x7b], false⟩ with
    | (.ok _, s2) => (.ok (), ⟨s2.out ++ [0x7d], true⟩)
    | (.error e, s2) => (.error e, s2)

/-- All write operations of `Writer`: the scalars, and the two container
operations with an arbitrary callback. -/
inductive WOp where
  | scalar (op : ScalarOp)
  | wArray (func : WState → Except Err Unit × WState)
  | wObject (func : WState → Except Err Unit × WState)

/-- Dispatch any write operation. -/
def runWOp : WOp → WState → Except Err Unit × WState
  | .scalar op => runScalar op
  | .wArray func => writeArrayOp func
  | .wObject func => writeObjectOp func

/-! ### Arithmetic helper lemmas -/

/-- Oring a value below `2 ^ k` onto a left shift by `k` is addition. -/
theorem lor_shiftLeft_eq_add {a : Nat} (b k : Nat) (h : a < 2 ^ k) :
    a ||| (b <<< k) = b * 2 ^ k + a := by
  rw [Nat.shiftLeft_eq, Nat.lor_comm, Nat.mul_comm b (2 ^ k)]
  exact (Nat.mul_add_lt_is_or h b).symm

/-- Masking with `0x7f` is `% 128`. -/
theorem and_127_eq_mod (x : Nat) : x &&& 127 = x % 128 := by
  have h := Nat.and_pow_two_sub_one_eq_mod x 7
  norm_num at h
  exact h

/-- Setting the continuation bit on a 7-bit group is addition of 128. -/
theorem lor_128_eq_add {x : Nat} (h : x < 128) : 128 ||| x = 128 + x := by
  rw [Nat.lor_comm]
  have h2 := lor_shiftLeft_eq_add (a := x) 1 7 (by omega)
  norm_num at h2
  exact h2

/-- Extracting a shifted bit field is division and remainder. -/
theorem and_shift_byte (x k s : Nat) :
    (x &&& ((2 ^ k - 1) <<< s)) >>> s = x / 2 ^ s % 2 ^ k := by
  apply Nat.eq_of_testBit_eq
  intro j
  rw [← Nat.shiftRight_eq_div_pow]
  simp only [Nat.testBit_shiftRight, Nat.testBit_and, Nat.testBit_shiftLeft,
    Nat.testBit_two_pow_sub_one, Nat.testBit_mod_two_pow]
  have h1 : s + j - s = j := by omega
  have h2 : decide (s ≤ s + j) = true := by simp
  rw [h1, h2]
  cases hx : x.testBit (s + j) <;> cases hj : decide (j < k) <;> simp

/-! ### Varint codec lemmas -/

/-- Decoding the varint encoder's output: generalized loop invariant. -/
theorem nextLEB128Loop_writeLEB128Go (g : Nat) :
    ∀ num acc shift rest, 0 < g → num < 2 ^ (7 * g) → acc < 2 ^ shift →
      acc + num * 2 ^ shift < 2 ^ 64 →
      nextLEB128Loop (writeLEB128Go g num ++ rest) acc shift =
        .ok (acc + num * 2 ^ shift, rest) := by
  induction g with
  | zero => intro _ _ _ _ hg _ _ _; omega
  | succ g ih =>
    intro num acc shift rest _ hnum hacc hbound
    have hsr : num >>> 7 = num / 128 := by
      simp [Nat.shiftRight_eq_div_pow]
    by_cases h7 : num >>> 7 = 0
    · have hsmall : num < 128 := by omega
      have hc : ¬ (num > 0x7f) := by omega
      simp only [writeLEB128Go, if_pos h7, if_neg hc, Nat.zero_or,
        and_127_eq_mod, List.singleton_append, nextLEB128Loop]
      have e1 : num % 128 % 256 = num := by omega
      rw [e1]
      rw [if_neg (by omega : ¬ (num ≥ 0x80))]
      have e2 : num % 128 = num := Nat.mod_eq_of_lt hsmall
      rw [e2, lor_shiftLeft_eq_add num shift hacc, Nat.mod_eq_of_lt (by omega)]
      have e3 : num * 2 ^ shift + acc = acc + num * 2 ^ shift := by omega
      rw [e3]
    · have hbig : num ≥ 128 := by omega
      have hc : num > 0x7f := by omega
      have hg0 : 0 < g := by
        rcases Nat.eq_zero_or_pos g with h0 | h
        · exfalso; subst h0; norm_num at hnum; omega
        · exact h
      simp only [writeLEB128Go, if_neg h7, if_pos hc, and_127_eq_mod,
        List.cons_append, nextLEB128Loop]
      rw [lor_128_eq_add (by omega)]
      have e1 : (128 + num % 128) % 256 = 128 + num % 128 := by omega
      rw [e1, if_pos (by omega : 128 + num % 128 ≥ 0x80)]
      have e2 : (128 + num % 128) % 128 = num % 128 := by omega
      rw [e2, lor_shiftLeft_eq_add (num % 128) shift hacc]
      have hAB : num % 128 * 2 ^ shift ≤ num * 2 ^ shift :=
        Nat.mul_le_mul_right _ (Nat.mod_le num 128)
      rw [Nat.mod_eq_of_lt (by omega)]
      have hp : (2:Nat) ^ (shift + 7) = 2 ^ shift * 128 := by
        rw [pow_add]; norm_num
      have hdm : 128 * (num / 128) + num % 128 = num := Nat.div_add_mod num 128
      have hkey : num % 128 * 2 ^ shift + num / 128 * (2 ^ shift * 128)
          = num * 2 ^ shift := by
        conv_rhs => rw [← hdm]
        ring
      have hintro : num % 128 * 2 ^ shift + acc + num / 128 * 2 ^ (shift + 7)
          = acc + num * 2 ^ shift := by
        rw [hp]; omega
      have hacc2 : num % 128 * 2 ^ shift + acc < 2 ^ (shift + 7) := by
        rw [hp]
        have h1 : num % 128 * 2 ^ shift ≤ 127 * 2 ^ shift :=
          Nat.mul_le_mul_right _ (by omega)
        omega
      have hnum2 : num >>> 7 < 2 ^ (7 * g) := by
        rw [hsr]
        have hps : (2:Nat) ^ (7 * (g + 1)) = 2 ^ (7 * g) * 128 := by
          rw [show 7 * (g + 1) = 7 * g + 7 by ring, pow_add]; norm_num
        rw [hps] at hnum
        rw [Nat.div_lt_iff_lt_mul (by norm_num)]
        omega
      have hb3 : num % 128 * 2 ^ shift + acc + num >>> 7 * 2 ^ (shift + 7)
          < 2 ^ 64 := by
        rw [hsr]; omega
      rw [ih (num >>> 7) (num % 128 * 2 ^ shift + acc) (shift + 7) rest hg0
        hnum2 hacc2 hb3]
      rw [hsr, hintro]

/-- Round trip of the varint codec for any `uint64_t` magnitude. -/
theorem nextLEB128_writeLEB128 {n : Nat} (h : n < 2 ^ 64) (rest : Bytes) :
    nextLEB128 (writeLEB128 n ++ rest) = .ok (n, rest) := by
  have h10 := nextLEB128Loop_writeLEB128Go 10 n 0 0 rest (by norm_num)
    (by norm_num; omega) (by norm_num) (by norm_num; omega)
  simpa [nextLEB128, writeLEB128] using h10

/-! ### Float and double codec lemmas -/

/-- Evaluation of `getFloat` on an explicit five-byte input. -/
theorem getFloat_bytes (b0 b1 b2 b3 : Nat) (rest : Bytes) :
    getFloat (0x66 :: b0 :: b1 :: b2 :: b3 :: rest) =
      .ok (0 ||| ((b0 % 256) <<< 0) ||| ((b1 % 256) <<< 8)
        ||| ((b2 % 256) <<< 16) ||| ((b3 % 256) <<< 24), rest) := rfl

/-- Decoding the float writer's bytes restores the exact bit pattern. -/
theorem getFloat_writeFloat {bits : Nat} (h : bits < 2 ^ 32) (rest : Bytes) :
    getFloat (writeFloat bits ++ rest) = .ok (bits, rest) := by
  have e0 : (bits &&& 0x000000ff) >>> 0 = bits % 256 := by
    rw [show (0x000000ff : Nat) = (2 ^ 8 - 1) <<< 0 by decide, and_shift_byte]
    norm_num
  have e1 : (bits &&& 0x0000ff00) >>> 8 = bits / 2 ^ 8 % 256 := by
    rw [show (0x0000ff00 : Nat) = (2 ^ 8 - 1) <<< 8 by decide, and_shift_byte]
    norm_num
  have e2 : (bits &&& 0x00ff0000) >>> 16 = bits / 2 ^ 16 % 256 := by
    rw [show (0x00ff0000 : Nat) = (2 ^ 8 - 1) <<< 16 by decide, and_shift_byte]
    norm_num
  have e3 : (bits &&& 0xff000000) >>> 24 = bits / 2 ^ 24 % 256 := by
    rw [show (0xff000000 : Nat) = (2 ^ 8 - 1) <<< 24 by decide, and_shift_byte]
    norm_num
  rw [writeFloat, e0, e1, e2, e3, List.cons_append, List.cons_append,
    List.cons_append, List.cons_append, List.cons_append, List.nil_append,
    getFloat_bytes]
  have : 0 ||| ((bits % 256 % 256) <<< 0) ||| ((bits / 2 ^ 8 % 256 % 256) <<< 8)
      ||| ((bits / 2 ^ 16 % 256 % 256) <<< 16)
      ||| ((bits / 2 ^ 24 % 256 % 256) <<< 24) = bits := by
    rw [show bits % 256 % 256 = bits % 256 by omega,
      show bits / 2 ^ 8 % 256 % 256 = bits / 2 ^ 8 % 256 by omega,
      show bits / 2 ^ 16 % 256 % 256 = bits / 2 ^ 16 % 256 by omega,
      show bits / 2 ^ 24 % 256 % 256 = bits / 2 ^ 24 % 256 by omega,
      Nat.zero_or, Nat.shiftLeft_zero,
      lor_shiftLeft_eq_add (bits / 2 ^ 8 % 256) 8 (by omega),
      lor_shiftLeft_eq_add (bits / 2 ^ 16 % 256) 16 (by omega),
      lor_shiftLeft_eq_add (bits / 2 ^ 24 % 256) 24 (by omega)]
    omega
  rw [this]

/-- Evaluation of `getDouble` on an explicit nine-byte input. -/
theorem getDouble_bytes (b0 b1 b2 b3 b4 b5 b6 b7 : Nat) (rest : Bytes) :
    getDouble (0x64 :: b0 :: b1 :: b2 :: b3 :: b4 :: b5 :: b6 :: b7 :: rest) =
      .ok (0 ||| ((b0 % 256) <<< 0) ||| ((b1 % 256) <<< 8)
        ||| ((b2 % 256) <<< 16) ||| ((b3 % 256) <<< 24)
        ||| ((b4 % 256) <<< 32) ||| ((b5 % 256) <<< 40)
        ||| ((b6 % 256) <<< 48) ||| ((b7 % 256) <<< 56), rest) := rfl

/-- Decoding the double writer's bytes restores the exact bit pattern. -/
theorem getDouble_writeDouble {bits : Nat} (h : bits < 2 ^ 64) (rest : Bytes) :
    getDouble (writeDouble bits ++ rest) = .ok (bits, rest) := by
  have e0 : (bits &&& 0x00000000000000ff) >>> 0 = bits % 256 := by
    rw [show (0x00000000000000ff : Nat) = (2 ^ 8 - 1) <<< 0 by decide,
      and_shift_byte]
    norm_num
  have e1 : (bits &&& 0x000000000000ff00) >>> 8 = bits / 2 ^ 8 % 256 := by
    rw [show (0x000000000000ff00 : Nat) = (2 ^ 8 - 1) <<< 8 by decide,
      and_shift_byte]
    norm_num
  have e2 : (bits &&& 0x0000000000ff0000) >>> 16 = bits / 2 ^ 16 % 256 := by
    rw [show (0x0000000000ff0000 : Nat) = (2 ^ 8 - 1) <<< 16 by decide,
      and_shift_byte]
    norm_num
  have e3 : (bits &&& 0x00000000ff000000) >>> 24 = bits / 2 ^ 24 % 256 := by
    rw [show (0x00000000ff000000 : Nat) = (2 ^ 8 - 1) <<< 24 by decide,
      and_shift_byte]
    norm_num
  have e4 : (bits &&& 0x000000ff00000000) >>> 32 = bits / 2 ^ 32 % 256 := by
    rw [show (0x000000ff00000000 : Nat) = (2 ^ 8 - 1) <<< 32 by decide,
      and_shift_byte]
    norm_num
  have e5 : (bits &&& 0x0000ff0000000000) >>> 40 = bits / 2 ^ 40 % 256 := by
    rw [show (0x0000ff0000000000 : Nat) = (2 ^ 8 - 1) <<< 40 by decide,
      and_shift_byte]
    norm_num
  have e6 : (bits &&& 0x00ff000000000000) >>> 48 = bits / 2 ^ 48 % 256 := by
    rw [show (0x00ff000000000000 : Nat) = (2 ^ 8 - 1) <<< 48 by decide,
      and_shift_byte]
    norm_num
  have e7 : (bits &&& 0xff00000000000000) >>> 56 = bits / 2 ^ 56 % 256 := by
    rw [show (0xff00000000000000 : Nat) = (2 ^ 8 - 1) <<< 56 by decide,
      and_shift_byte]
    norm_num
  rw [writeDouble, e0, e1, e2, e3, e4, e5, e6, e7]
  simp only [List.cons_append, List.nil_append]
  rw [getDouble_bytes]
  have : 0 ||| ((bits % 256 % 256) <<< 0) ||| ((bits / 2 ^ 8 % 256 % 256) <<< 8)
      ||| ((bits / 2 ^ 16 % 256 % 256) <<< 16)
      ||| ((bits / 2 ^ 24 % 256 % 256) <<< 24)
      ||| ((bits / 2 ^ 32 % 256 % 256) <<< 32)
      ||| ((bits / 2 ^ 40 % 256 % 256) <<< 40)
      ||| ((bits / 2 ^ 48 % 256 % 256) <<< 48)
      ||| ((bits / 2 ^ 56 % 256 % 256) <<< 56) = bits := by
    rw [show bits % 256 % 256 = bits % 256 by omega,
      show bits / 2 ^ 8 % 256 % 256 = bits / 2 ^ 8 % 256 by omega,
      show bits / 2 ^ 16 % 256 % 256 = bits / 2 ^ 16 % 256 by omega,
      show bits / 2 ^ 24 % 256 % 256 = bits / 2 ^ 24 % 256 by omega,
      show bits / 2 ^ 32 % 256 % 256 = bits / 2 ^ 32 % 256 by omega,
      show bits / 2 ^ 40 % 256 % 256 = bits / 2 ^ 40 % 256 by omega,
      show bits / 2 ^ 48 % 256 % 256 = bits / 2 ^ 48 % 256 by omega,
      show bits / 2 ^ 56 % 256 % 256 = bits / 2 ^ 56 % 256 by omega,
      Nat.zero_or, Nat.shiftLeft_zero,
      lor_shiftLeft_eq_add (bits / 2 ^ 8 % 256) 8 (by omega),
      lor_shiftLeft_eq_add (bits / 2 ^ 16 % 256) 16 (by omega),
      lor_shiftLeft_eq_add (bits / 2 ^ 24 % 256) 24 (by omega),
      lor_shiftLeft_eq_add (bits / 2 ^ 32 % 256) 32 (by omega),
      lor_shiftLeft_eq_add (bits / 2 ^ 40 % 256) 40 (by omega),
      lor_shiftLeft_eq_add (bits / 2 ^ 48 % 256) 48 (by omega),
      lor_shiftLeft_eq_add (bits / 2 ^ 56 % 256) 56 (by omega)]
    omega
  rw [this]

/-! ### Integer codec lemmas -/

/-- `getUInt` on a digit byte. -/
theorem getUInt_digit {d : Nat} (h : d ≤ 9) (rest : Bytes) :
    getUInt ((0x30 + d) :: rest) = .ok (d, rest) := by
  simp only [getUInt, next]
  rw [if_pos (by omega)]
  congr 2
  omega

/-- `getUInt` on a plus tag followed by a varint. -/
theorem getUInt_plus {m : Nat} (h : m < 2 ^ 64) (rest : Bytes) :
    getUInt (0x2b :: (writeLEB128 m ++ rest)) = .ok (m, rest) := by
  simp only [getUInt, next]
  rw [if_neg (by omega), if_true]
  exact nextLEB128_writeLEB128 h rest

/-- `getInt` on a digit byte. -/
theorem getInt_digit {d : Nat} (h : d ≤ 9) (rest : Bytes) :
    getInt ((0x30 + d) :: rest) = .ok ((d : Int), rest) := by
  simp only [getInt, next]
  rw [if_pos (by omega)]
  congr 2
  push_cast
  omega

/-- `getInt` on a plus tag: the varint magnitude converted to `int64_t`. -/
theorem getInt_plus {m : Nat} (h : m < 2 ^ 64) (rest : Bytes) :
    getInt (0x2b :: (writeLEB128 m ++ rest)) = .ok (toInt64 m, rest) := by
  simp only [getInt, next]
  rw [if_neg (by omega), if_true, nextLEB128_writeLEB128 h]


/-- `getInt` on a minus tag: unsigned negation, then conversion. -/
theorem getInt_minus {m : Nat} (h : m < 2 ^ 64) (rest : Bytes) :
    getInt (0x2d :: (writeLEB128 m ++ rest)) =
      .ok (toInt64 ((2 ^ 64 - m) % 2 ^ 64), rest) := by
  simp only [getInt, next]
  rw [if_neg (by omega), if_neg (by omega), if_true,
    nextLEB128_writeLEB128 h]

/-- Round trip of `writeInt`/`getInt` for negative values, including the
special-cased `INT64_MIN`. -/
theorem getInt_writeInt_neg {n : Int} (h1 : -(2 ^ 63) ≤ n) (h2 : n < 0)
    (rest : Bytes) : getInt (writeInt n ++ rest) = .ok (n, rest) := by
  by_cases hmin : n = -(2 ^ 63)
  · subst hmin
    rw [writeInt, if_pos rfl, List.cons_append, getInt_minus (by norm_num)]
    norm_num [toInt64]
  · rw [writeInt, if_neg hmin, if_pos h2, List.cons_append,
      getInt_minus (m := (-n).toNat) (by omega)]
    congr 2
    have hm : ((-n).toNat : Int) = -n := Int.toNat_of_nonneg (by omega)
    have hlt : (-n).toNat < 2 ^ 63 := by omega
    rw [toInt64, if_neg (by omega)]
    omega

/-- Round trip of `writeInt`/`getUInt` for non-negative values (the
digit and plus encodings are classified as UINT by `getType`). -/
theorem getUInt_writeInt_nonneg {n : Int} (h1 : 0 ≤ n) (h2 : n < 2 ^ 63)
    (rest : Bytes) : getUInt (writeInt n ++ rest) = .ok (n.toNat, rest) := by
  by_cases h9 : n ≤ 9
  · rw [writeInt, if_neg (by omega), if_neg (by omega), if_pos h9]
    have e : ((0x30 + n).toNat) = 0x30 + n.toNat := by omega
    rw [List.singleton_append, e, getUInt_digit (by omega)]
  · rw [writeInt, if_neg (by omega), if_neg (by omega), if_neg h9,
      List.cons_append, getUInt_plus (by omega)]

/-- Round trip of `writeUInt`/`getUInt`. -/
theorem getUInt_writeUInt {n : Nat} (h : n < 2 ^ 64) (rest : Bytes) :
    getUInt (writeUInt n ++ rest) = .ok (n, rest) := by
  by_cases h9 : n ≤ 9
  · rw [writeUInt, if_pos h9, List.singleton_append, getUInt_digit h9]
  · rw [writeUInt, if_neg h9, List.cons_append, getUInt_plus h]

/-! ### String, binary and key codec lemmas -/

/-- The string-content loop consumes the content and the NUL. -/
theorem getStringLoop_encode {s : List Nat} (h : ∀ b ∈ s, b ≠ 0)
    (rest : Bytes) : getStringLoop (s ++ 0 :: rest) = .ok (s, rest) := by
  induction s with
  | nil => simp [getStringLoop]
  | cons b s ihs =>
    have hb : b ≠ 0 := h b (by simp)
    simp only [List.cons_append, getStringLoop, if_neg hb, List.append_eq]
    rw [ihs (fun x hx => h x (by simp [hx]))]

/-- The skip variant consumes the same bytes. -/
theorem skipStringLoop_encode {s : List Nat} (h : ∀ b ∈ s, b ≠ 0)
    (rest : Bytes) : skipStringLoop (s ++ 0 :: rest) = .ok rest := by
  induction s with
  | nil => simp [skipStringLoop]
  | cons b s ihs =>
    have hb : b ≠ 0 := h b (by simp)
    simp only [List.cons_append, skipStringLoop, if_neg hb, List.append_eq]
    exact ihs (fun x hx => h x (by simp [hx]))

/-- `getString` on the writer's output. -/
theorem getString_writeString {s : List Nat} (h : ∀ b ∈ s, b ≠ 0)
    (rest : Bytes) : getString (writeString s ++ rest) = .ok (s, rest) := by
  rw [writeString]
  simp only [List.cons_append, List.append_assoc, List.singleton_append]
  rw [getString, if_pos rfl]
  exact getStringLoop_encode h rest

/-- `skipString` on the writer's output. -/
theorem skipString_writeString {s : List Nat} (h : ∀ b ∈ s, b ≠ 0)
    (rest : Bytes) : skipString (writeString s ++ rest) = .ok rest := by
  rw [writeString]
  simp only [List.cons_append, List.append_assoc, List.singleton_append]
  rw [skipString, if_pos rfl]
  exact skipStringLoop_encode h rest

/-- Reading exactly the payload bytes. -/
theorem readN_append (data : List Nat) (rest : Bytes) :
    readN data.length (data ++ rest) = .ok (data, rest) := by
  induction data with
  | nil => simp [readN]
  | cons b d ihd =>
    simp only [List.cons_append, List.length_cons, readN, next, ihd]

/-- Skipping exactly the payload bytes. -/
theorem skipN_append (data : List Nat) (rest : Bytes) :
    skipN data.length (data ++ rest) = .ok rest := by
  induction data with
  | nil => simp [skipN]
  | cons b d ihd =>
    simp only [List.cons_append, List.length_cons, skipN, next, ihd]

/-- `getBinary` on the writer's output. -/
theorem getBinary_writeBinary {data : List Nat} (h : data.length < 2 ^ 64)
    (rest : Bytes) : getBinary (writeBinary data ++ rest) = .ok (data, rest) := by
  rw [writeBinary]
  simp only [List.cons_append, List.append_assoc]
  rw [getBinary, if_pos rfl, nextLEB128_writeLEB128 h]
  exact readN_append data rest

/-- `skipBinary` on the writer's output. -/
theorem skipBinary_writeBinary {data : List Nat} (h : data.length < 2 ^ 64)
    (rest : Bytes) : skipBinary (writeBinary data ++ rest) = .ok rest := by
  rw [writeBinary]
  simp only [List.cons_append, List.append_assoc]
  rw [skipBinary, if_pos rfl, nextLEB128_writeLEB128 h]
  exact skipN_append data rest

/-- `ObjectReader::next` consumes exactly the key and its NUL. -/
theorem readKey_encode {k : List Nat} (h : ∀ b ∈ k, b ≠ 0) (rest : Bytes) :
    readKey (k ++ 0 :: rest) = .ok (k, rest) := by
  induction k with
  | nil => simp [readKey]
  | cons b kk ihk =>
    have hb : b ≠ 0 := h b (by simp)
    simp only [List.cons_append, readKey, if_neg hb, List.append_eq]
    rw [ihk (fun x hx => h x (by simp [hx]))]

/-! ### Type dispatch and encoding-shape lemmas -/

/-- A digit or plus byte is classified as UINT. -/
theorem getType_uintTag {ch : Nat} (h : ch = 0x2b ∨ (0x30 ≤ ch ∧ ch ≤ 0x39))
    (l : Bytes) : getType (ch :: l) = .ok .uint := by
  simp only [getType, peek]
  rw [if_neg (by omega), if_neg (by omega), if_neg (by omega),
    if_neg (by omega), if_neg (by omega), if_neg (by omega), if_pos h]

/-- Validity of a string value yields NUL-freedom of its bytes. -/
theorem valid_str_no_nul {s : List Nat} (h : valid (.str s) = true) :
    ∀ b ∈ s, b ≠ 0 := by
  intro b hb
  simp only [valid, List.all_eq_true] at h
  have := h b hb
  simp at this
  exact this.1

/-- Validity of a key yields NUL-freedom of its bytes. -/
theorem validKey_no_nul {k : List Nat} (h : validKey k = true) :
    ∀ b ∈ k, b ≠ 0 := by
  intro b hb
  simp only [validKey, Bool.and_eq_true, List.all_eq_true] at h
  have := h.1 b hb
  simp at this
  exact this.1

/-- A valid key does not start with the object closer. -/
theorem validKey_head {k : List Nat} (h : validKey k = true) {b : Nat}
    {tail : List Nat} (he : k = b :: tail) : b ≠ 0x7d := by
  subst he
  simp only [validKey, Bool.and_eq_true] at h
  have := h.2
  simp at this
  exact this

/-- The first byte of a valid encoded value is a value-start tag: in
particular it is neither `']'` nor `'}'`. -/
theorem encode_head (v : Value) (hv : valid v = true) :
    ∃ t tail, encode v = t :: tail ∧ t ≠ 0x5d ∧ t ≠ 0x7d := by
  cases v with
  | bool b =>
    cases b
    · exact ⟨0x46, [], rfl, by omega, by omega⟩
    · exact ⟨0x54, [], rfl, by omega, by omega⟩
  | nil => exact ⟨0x4e, [], rfl, by omega, by omega⟩
  | str s =>
    exact ⟨0x53, s ++ [0], by simp [encode, writeString], by omega, by omega⟩
  | bin data =>
    exact ⟨0x42, writeLEB128 data.length ++ data, rfl, by omega, by omega⟩
  | flt bits =>
    exact ⟨0x66, _, rfl, by omega, by omega⟩
  | dbl bits =>
    exact ⟨0x64, _, rfl, by omega, by omega⟩
  | int n =>
    by_cases hmin : n = -(2 ^ 63)
    · refine ⟨0x2d, writeLEB128 (2 ^ 63), ?_, by omega, by omega⟩
      show writeInt n = _
      rw [writeInt, if_pos hmin]
    · by_cases hneg : n < 0
      · refine ⟨0x2d, writeLEB128 (-n).toNat, ?_, by omega, by omega⟩
        show writeInt n = _
        rw [writeInt, if_neg hmin, if_pos hneg]
      · by_cases h9 : n ≤ 9
        · refine ⟨(0x30 + n).toNat, [], ?_, by omega, by omega⟩
          show writeInt n = _
          rw [writeInt, if_neg hmin, if_neg hneg, if_pos h9]
        · refine ⟨0x2b, writeLEB128 n.toNat, ?_, by omega, by omega⟩
          show writeInt n = _
          rw [writeInt, if_neg hmin, if_neg hneg, if_neg h9]
  | uint n =>
    by_cases h9 : n ≤ 9
    · refine ⟨0x30 + n, [], ?_, by omega, by omega⟩
      show writeUInt n = _
      rw [writeUInt, if_pos h9]
    · refine ⟨0x2b, writeLEB128 n, ?_, by omega, by omega⟩
      show writeUInt n = _
      rw [writeUInt, if_neg h9]
  | arr es =>
    exact ⟨0x5b, encodeList es ++ [0x5d], by simp [encode], by omega, by omega⟩
  | obj es =>
    exact ⟨0x7b, encodeEntries es ++ [0x7d], by simp [encode], by omega, by omega⟩

/-! ### Skip consumes exactly one encoded value -/

/-- Joint fuel induction: with fuel at least the encoded length, `skip`
consumes exactly the encoding of a valid value (and the `all` loops of
the container cases consume exactly the element/entry bytes, stopping at
the closer). -/
theorem skip_encode_all (fuel : Nat) :
    (∀ v rest, valid v = true → (encode v).length ≤ fuel →
      skipFuel fuel (encode v ++ rest) = .ok rest)
    ∧ (∀ vs rest, validList vs = true → (encodeList vs).length + 1 ≤ fuel →
      skipArrLoop fuel (encodeList vs ++ 0x5d :: rest) = .ok (0x5d :: rest))
    ∧ (∀ es rest, validEntries es = true → (encodeEntries es).length + 1 ≤ fuel →
      skipObjLoop fuel (encodeEntries es ++ 0x7d :: rest) = .ok (0x7d :: rest)) := by
  induction fuel using Nat.strong_induction_on with
  | _ fuel ih =>
    match fuel with
    | 0 =>
      refine ⟨fun v rest hv hlen => ?_, fun vs rest hv hlen => by omega,
        fun es rest hv hlen => by omega⟩
      obtain ⟨t, tail, het, _, _⟩ := encode_head v hv
      rw [het] at hlen
      simp at hlen
    | fuel + 1 =>
      refine ⟨fun v rest hv hlen => ?_, fun vs rest hv hlen => ?_,
        fun es rest hv hlen => ?_⟩
      · -- skipFuel on one encoded value
        cases v with
        | bool b => cases b <;> rfl
        | nil => rfl
        | str s =>
          have hs := valid_str_no_nul hv
          have hgt : getType (encode (.str s) ++ rest) = .ok .string := by
            rw [show encode (.str s) = writeString s from rfl, writeString,
              List.cons_append]
            rfl
          simp only [skipFuel, hgt]
          rw [show encode (.str s) = writeString s from rfl,
            skipString_writeString hs]
        | bin data =>
          have hlen64 : data.length < 2 ^ 64 := by
            simp only [valid, Bool.and_eq_true, decide_eq_true_eq] at hv
            exact hv.1
          have hgt : getType (encode (.bin data) ++ rest) = .ok .binary := by
            rw [show encode (.bin data) = writeBinary data from rfl,
              writeBinary, List.cons_append]
            rfl
          simp only [skipFuel, hgt]
          rw [show encode (.bin data) = writeBinary data from rfl,
            skipBinary_writeBinary hlen64]
        | flt bits =>
          have hb : bits < 2 ^ 32 := by simpa [valid] using hv
          have hgt : getType (encode (.flt bits) ++ rest) = .ok .float := by
            rw [show encode (.flt bits) = writeFloat bits from rfl, writeFloat,
              List.cons_append]
            rfl
          simp only [skipFuel, hgt]
          rw [show encode (.flt bits) = writeFloat bits from rfl,
            getFloat_writeFloat hb]
          rfl
        | dbl bits =>
          have hb : bits < 2 ^ 64 := by simpa [valid] using hv
          have hgt : getType (encode (.dbl bits) ++ rest) = .ok .double := by
            rw [show encode (.dbl bits) = writeDouble bits from rfl,
              writeDouble, List.cons_append]
            rfl
          simp only [skipFuel, hgt]
          rw [show encode (.dbl bits) = writeDouble bits from rfl,
            getDouble_writeDouble hb]
          rfl
        | int n =>
          have hrange : -(2 ^ 63) ≤ n ∧ n < 2 ^ 63 := by
            simpa [valid, Bool.and_eq_true] using hv
          by_cases hneg : n < 0
          · have hgt : getType (encode (.int n) ++ rest) = .ok .int := by
              by_cases hmin : n = -(2 ^ 63)
              · rw [show encode (.int n) = writeInt n from rfl, writeInt,
                  if_pos hmin, List.cons_append]
                rfl
              · rw [show encode (.int n) = writeInt n from rfl, writeInt,
                  if_neg hmin, if_pos hneg, List.cons_append]
                rfl
            simp only [skipFuel, hgt]
            rw [show encode (.int n) = writeInt n from rfl,
              getInt_writeInt_neg hrange.1 hneg]
            rfl
          · have hgt : getType (encode (.int n) ++ rest) = .ok .uint := by
              by_cases h9 : n ≤ 9
              · rw [show encode (.int n) = writeInt n from rfl, writeInt,
                  if_neg (by omega), if_neg hneg, if_pos h9,
                  List.singleton_append]
                exact getType_uintTag (Or.inr ⟨by omega, by omega⟩) _
              · rw [show encode (.int n) = writeInt n from rfl, writeInt,
                  if_neg (by omega), if_neg hneg, if_neg h9, List.cons_append]
                exact getType_uintTag (Or.inl rfl) _
            simp only [skipFuel, hgt]
            rw [show encode (.int n) = writeInt n from rfl,
              getUInt_writeInt_nonneg (by omega) hrange.2]
            rfl
        | uint n =>
          have hn : n < 2 ^ 64 := by simpa [valid] using hv
          have hgt : getType (encode (.uint n) ++ rest) = .ok .uint := by
            by_cases h9 : n ≤ 9
            · rw [show encode (.uint n) = writeUInt n from rfl, writeUInt,
                if_pos h9, List.singleton_append]
              exact getType_uintTag (Or.inr ⟨by omega, by omega⟩) _
            · rw [show encode (.uint n) = writeUInt n from rfl, writeUInt,
                if_neg h9, List.cons_append]
              exact getType_uintTag (Or.inl rfl) _
          simp only [skipFuel, hgt]
          rw [show encode (.uint n) = writeUInt n from rfl,
            getUInt_writeUInt hn]
          rfl
        | arr es =>
          have hvl : validList es = true := by simpa [valid] using hv
          have henc : encode (.arr es) = 0x5b :: encodeList es ++ [0x5d] := by
            simp [encode]
          rw [henc] at hlen
          simp only [List.length_cons, List.length_append,
            List.length_singleton] at hlen
          have hshape : (0x5b :: encodeList es ++ [0x5d]) ++ rest
              = 0x5b :: (encodeList es ++ 0x5d :: rest) := by simp
          rw [henc, hshape]
          have hloop := (ih fuel (by omega)).2.1 es rest hvl (by omega)
          have hgt : getType (0x5b :: (encodeList es ++ 0x5d :: rest))
              = .ok .array := rfl
          simp only [skipFuel, hgt, next]
          rw [if_true, hloop]
          rfl
        | obj es =>
          have hvl : validEntries es = true := by simpa [valid] using hv
          have henc : encode (.obj es) = 0x7b :: encodeEntries es ++ [0x7d] := by
            simp [encode]
          rw [henc] at hlen
          simp only [List.length_cons, List.length_append,
            List.length_singleton] at hlen
          have hshape : (0x7b :: encodeEntries es ++ [0x7d]) ++ rest
              = 0x7b :: (encodeEntries es ++ 0x7d :: rest) := by simp
          rw [henc, hshape]
          have hloop := (ih fuel (by omega)).2.2 es rest hvl (by omega)
          have hgt : getType (0x7b :: (encodeEntries es ++ 0x7d :: rest))
              = .ok .object := rfl
          simp only [skipFuel, hgt, next]
          rw [if_true, hloop]
          rfl
      · -- skipArrLoop
        cases vs with
        | nil => rfl
        | cons v vs =>
          have hv2 : valid v = true ∧ validList vs = true := by
            simpa [validList, Bool.and_eq_true] using hv
          obtain ⟨t, tail, het, ht1, _⟩ := encode_head v hv2.1
          have hshape : encodeList (v :: vs) ++ 0x5d :: rest
              = encode v ++ (encodeList vs ++ 0x5d :: rest) := by
            simp [encodeList]
          have hlen2 : (encode v).length + (encodeList vs).length + 1
              ≤ fuel + 1 := by
            simpa [encodeList] using hlen
          have hepos : 1 ≤ (encode v).length := by rw [het]; simp
          rw [hshape]
          have hhn : arrayHasNext (encode v ++ (encodeList vs ++ 0x5d :: rest))
              = true := by
            rw [het, List.cons_append]
            simp [arrayHasNext, peek, ht1]
          have hskip := (ih fuel (by omega)).1 v (encodeList vs ++ 0x5d :: rest)
            hv2.1 (by omega)
          have hloop := (ih fuel (by omega)).2.1 vs rest hv2.2 (by omega)
          simp only [skipArrLoop, hhn, if_true, hskip, hloop]
      · -- skipObjLoop
        cases es with
        | nil => rfl
        | cons e es =>
          obtain ⟨k, v⟩ := e
          have hv2 : validKey k = true ∧ valid v = true
              ∧ validEntries es = true := by
            simpa [validEntries, Bool.and_eq_true, and_assoc] using hv
          have hnul := validKey_no_nul hv2.1
          have hshape : encodeEntries ((k, v) :: es) ++ 0x7d :: rest
              = k ++ 0 :: (encode v ++ (encodeEntries es ++ 0x7d :: rest)) := by
            simp [encodeEntries]
          have hlen2 : k.length + 1 + (encode v).length
              + (encodeEntries es).length + 1 ≤ fuel + 1 := by
            have := hlen
            simp [encodeEntries] at this
            omega
          obtain ⟨t, tail, het, _, _⟩ := encode_head v hv2.2.1
          have hepos : 1 ≤ (encode v).length := by rw [het]; simp
          rw [hshape]
          have hhn : objectHasNext
              (k ++ 0 :: (encode v ++ (encodeEntries es ++ 0x7d :: rest)))
              = true := by
            cases k with
            | nil => rfl
            | cons b k2 =>
              have hb := validKey_head hv2.1 rfl
              rw [List.cons_append]
              simp [objectHasNext, peek, hb]
          have hkey := readKey_encode hnul
            (encode v ++ (encodeEntries es ++ 0x7d :: rest))
          have hskip := (ih fuel (by omega)).1 v
            (encodeEntries es ++ 0x7d :: rest) hv2.2.1 (by omega)
          have hloop := (ih fuel (by omega)).2.2 es rest hv2.2.2 (by omega)
          simp only [skipObjLoop, hhn, if_true, hkey, hskip, hloop]

/-- Joint fuel induction for the generic decode: it consumes exactly the
same bytes (and succeeds on exactly the same inputs) as `skip`. -/
theorem read_encode_all (fuel : Nat) :
    (∀ v rest, valid v = true → (encode v).length ≤ fuel →
      ∃ w, readValueFuel fuel (encode v ++ rest) = .ok (w, rest))
    ∧ (∀ vs rest, validList vs = true → (encodeList vs).length + 1 ≤ fuel →
      ∃ ws, readArrLoop fuel (encodeList vs ++ 0x5d :: rest)
        = .ok (ws, 0x5d :: rest))
    ∧ (∀ es rest, validEntries es = true → (encodeEntries es).length + 1 ≤ fuel →
      ∃ ws, readObjLoop fuel (encodeEntries es ++ 0x7d :: rest)
        = .ok (ws, 0x7d :: rest)) := by
  induction fuel using Nat.strong_induction_on with
  | _ fuel ih =>
    match fuel with
    | 0 =>
      refine ⟨fun v rest hv hlen => ?_, fun vs rest hv hlen => by omega,
        fun es rest hv hlen => by omega⟩
      obtain ⟨t, tail, het, _, _⟩ := encode_head v hv
      rw [het] at hlen
      simp at hlen
    | fuel + 1 =>
      refine ⟨fun v rest hv hlen => ?_, fun vs rest hv hlen => ?_,
        fun es rest hv hlen => ?_⟩
      · cases v with
        | bool b => cases b <;> exact ⟨_, rfl⟩
        | nil => exact ⟨.nil, rfl⟩
        | str s =>
          have hs := valid_str_no_nul hv
          have hgt : getType (encode (.str s) ++ rest) = .ok .string := by
            rw [show encode (.str s) = writeString s from rfl, writeString,
              List.cons_append]
            rfl
          refine ⟨.str s, ?_⟩
          simp only [readValueFuel, hgt]
          rw [show encode (.str s) = writeString s from rfl,
            getString_writeString hs]
          rfl
        | bin data =>
          have hlen64 : data.length < 2 ^ 64 := by
            simp only [valid, Bool.and_eq_true, decide_eq_true_eq] at hv
            exact hv.1
          have hgt : getType (encode (.bin data) ++ rest) = .ok .binary := by
            rw [show encode (.bin data) = writeBinary data from rfl,
              writeBinary, List.cons_append]
            rfl
          refine ⟨.bin data, ?_⟩
          simp only [readValueFuel, hgt]
          rw [show encode (.bin data) = writeBinary data from rfl,
            getBinary_writeBinary hlen64]
          rfl
        | flt bits =>
          have hb : bits < 2 ^ 32 := by simpa [valid] using hv
          have hgt : getType (encode (.flt bits) ++ rest) = .ok .float := by
            rw [show encode (.flt bits) = writeFloat bits from rfl, writeFloat,
              List.cons_append]
            rfl
          refine ⟨.flt bits, ?_⟩
          simp only [readValueFuel, hgt]
          rw [show encode (.flt bits) = writeFloat bits from rfl,
            getFloat_writeFloat hb]
          rfl
        | dbl bits =>
          have hb : bits < 2 ^ 64 := by simpa [valid] using hv
          have hgt : getType (encode (.dbl bits) ++ rest) = .ok .double := by
            rw [show encode (.dbl bits) = writeDouble bits from rfl,
              writeDouble, List.cons_append]
            rfl
          refine ⟨.dbl bits, ?_⟩
          simp only [readValueFuel, hgt]
          rw [show encode (.dbl bits) = writeDouble bits from rfl,
            getDouble_writeDouble hb]
          rfl
        | int n =>
          have hrange : -(2 ^ 63) ≤ n ∧ n < 2 ^ 63 := by
            simpa [valid, Bool.and_eq_true] using hv
          by_cases hneg : n < 0
          · have hgt : getType (encode (.int n) ++ rest) = .ok .int := by
              by_cases hmin : n = -(2 ^ 63)
              · rw [show encode (.int n) = writeInt n from rfl, writeInt,
                  if_pos hmin, List.cons_append]
                rfl
              · rw [show encode (.int n) = writeInt n from rfl, writeInt,
                  if_neg hmin, if_pos hneg, List.cons_append]
                rfl
            refine ⟨.int n, ?_⟩
            simp only [readValueFuel, hgt]
            rw [show encode (.int n) = writeInt n from rfl,
              getInt_writeInt_neg hrange.1 hneg]
            rfl
          · have hgt : getType (encode (.int n) ++ rest) = .ok .uint := by
              by_cases h9 : n ≤ 9
              · rw [show encode (.int n) = writeInt n from rfl, writeInt,
                  if_neg (by omega), if_neg hneg, if_pos h9,
                  List.singleton_append]
                exact getType_uintTag (Or.inr ⟨by omega, by omega⟩) _
              · rw [show encode (.int n) = writeInt n from rfl, writeInt,
                  if_neg (by omega), if_neg hneg, if_neg h9, List.cons_append]
                exact getType_uintTag (Or.inl rfl) _
            refine ⟨.uint n.toNat, ?_⟩
            simp only [readValueFuel, hgt]
            rw [show encode (.int n) = writeInt n from rfl,
              getUInt_writeInt_nonneg (by omega) hrange.2]
            rfl
        | uint n =>
          have hn : n < 2 ^ 64 := by simpa [valid] using hv
          have hgt : getType (encode (.uint n) ++ rest) = .ok .uint := by
            by_cases h9 : n ≤ 9
            · rw [show encode (.uint n) = writeUInt n from rfl, writeUInt,
                if_pos h9, List.singleton_append]
              exact getType_uintTag (Or.inr ⟨by omega, by omega⟩) _
            · rw [show encode (.uint n) = writeUInt n from rfl, writeUInt,
                if_neg h9, List.cons_append]
              exact getType_uintTag (Or.inl rfl) _
          refine ⟨.uint n, ?_⟩
          simp only [readValueFuel, hgt]
          rw [show encode (.uint n) = writeUInt n from rfl,
            getUInt_writeUInt hn]
          rfl
        | arr es =>
          have hvl : validList es = true := by simpa [valid] using hv
          have henc : encode (.arr es) = 0x5b :: encodeList es ++ [0x5d] := by
            simp [encode]
          rw [henc] at hlen
          simp only [List.length_cons, List.length_append,
            List.length_singleton] at hlen
          have hshape : (0x5b :: encodeList es ++ [0x5d]) ++ rest
              = 0x5b :: (encodeList es ++ 0x5d :: rest) := by simp
          rw [henc, hshape]
          obtain ⟨ws, hws⟩ := (ih fuel (by omega)).2.1 es rest hvl (by omega)
          have hgt : getType (0x5b :: (encodeList es ++ 0x5d :: rest))
              = .ok .array := rfl
          refine ⟨.arr ws, ?_⟩
          simp only [readValueFuel, hgt, next]
          rw [if_true, hws]
          rfl
        | obj es =>
          have hvl : validEntries es = true := by simpa [valid] using hv
          have henc : encode (.obj es) = 0x7b :: encodeEntries es ++ [0x7d] := by
            simp [encode]
          rw [henc] at hlen
          simp only [List.length_cons, List.length_append,
            List.length_singleton] at hlen
          have hshape : (0x7b :: encodeEntries es ++ [0x7d]) ++ rest
              = 0x7b :: (encodeEntries es ++ 0x7d :: rest) := by simp
          rw [henc, hshape]
          obtain ⟨ws, hws⟩ := (ih fuel (by omega)).2.2 es rest hvl (by omega)
          have hgt : getType (0x7b :: (encodeEntries es ++ 0x7d :: rest))
              = .ok .object := rfl
          refine ⟨.obj ws, ?_⟩
          simp only [readValueFuel, hgt, next]
          rw [if_true, hws]
          rfl
      · cases vs with
        | nil => exact ⟨[], rfl⟩
        | cons v vs =>
          have hv2 : valid v = true ∧ validList vs = true := by
            simpa [validList, Bool.and_eq_true] using hv
          obtain ⟨t, tail, het, ht1, _⟩ := encode_head v hv2.1
          have hshape : encodeList (v :: vs) ++ 0x5d :: rest
              = encode v ++ (encodeList vs ++ 0x5d :: rest) := by
            simp [encodeList]
          have hlen2 : (encode v).length + (encodeList vs).length + 1
              ≤ fuel + 1 := by
            simpa [encodeList] using hlen
          have hepos : 1 ≤ (encode v).length := by rw [het]; simp
          rw [hshape]
          have hhn : arrayHasNext (encode v ++ (encodeList vs ++ 0x5d :: rest))
              = true := by
            rw [het, List.cons_append]
            simp [arrayHasNext, peek, ht1]
          obtain ⟨w, hw⟩ := (ih fuel (by omega)).1 v
            (encodeList vs ++ 0x5d :: rest) hv2.1 (by omega)
          obtain ⟨ws, hws⟩ := (ih fuel (by omega)).2.1 vs rest hv2.2 (by omega)
          refine ⟨w :: ws, ?_⟩
          simp only [readArrLoop, hhn, if_true, hw, hws]
      · cases es with
        | nil => exact ⟨[], rfl⟩
        | cons e es =>
          obtain ⟨k, v⟩ := e
          have hv2 : validKey k = true ∧ valid v = true
              ∧ validEntries es = true := by
            simpa [validEntries, Bool.and_eq_true, and_assoc] using hv
          have hnul := validKey_no_nul hv2.1
          have hshape : encodeEntries ((k, v) :: es) ++ 0x7d :: rest
              = k ++ 0 :: (encode v ++ (encodeEntries es ++ 0x7d :: rest)) := by
            simp [encodeEntries]
          have hlen2 : k.length + 1 + (encode v).length
              + (encodeEntries es).length + 1 ≤ fuel + 1 := by
            have := hlen
            simp [encodeEntries] at this
            omega
          obtain ⟨t, tail, het, _, _⟩ := encode_head v hv2.2.1
          have hepos : 1 ≤ (encode v).length := by rw [het]; simp
          rw [hshape]
          have hhn : objectHasNext
              (k ++ 0 :: (encode v ++ (encodeEntries es ++ 0x7d :: rest)))
              = true := by
            cases k with
            | nil => rfl
            | cons b k2 =>
              have hb := validKey_head hv2.1 rfl
              rw [List.cons_append]
              simp [objectHasNext, peek, hb]
          have hkey := readKey_encode hnul
            (encode v ++ (encodeEntries es ++ 0x7d :: rest))
          obtain ⟨w, hw⟩ := (ih fuel (by omega)).1 v
            (encodeEntries es ++ 0x7d :: rest) hv2.2.1 (by omega)
          obtain ⟨ws, hws⟩ := (ih fuel (by omega)).2.2 es rest hv2.2.2 (by omega)
          refine ⟨(k, w) :: ws, ?_⟩
          simp only [readObjLoop, hhn, if_true, hkey, hw, hws]

/-! ### Varint byte-structure lemmas -/

/-- The encoder emits at least one byte. -/
theorem writeLEB128Go_length_pos {g : Nat} (hg : 0 < g) (num : Nat) :
    0 < (writeLEB128Go g num).length := by
  match g, hg with
  | g + 1, _ =>
    rw [writeLEB128Go]
    split <;> simp

/-- The encoder emits exactly one byte per 7-bit group. -/
theorem writeLEB128Go_length (g : Nat) : ∀ num, 0 < g → num < 2 ^ (7 * g) →
    (writeLEB128Go g num).length = base128Groups num := by
  induction g with
  | zero => intro _ hg _; omega
  | succ g ih =>
    intro num _ hnum
    have hsr : num >>> 7 = num / 128 := by
      simp [Nat.shiftRight_eq_div_pow]
    by_cases h7 : num >>> 7 = 0
    · have hsmall : num < 128 := by omega
      rw [writeLEB128Go, if_pos h7]
      conv_rhs => rw [base128Groups]
      rw [if_pos hsmall]
      rfl
    · have hbig : num ≥ 128 := by omega
      have hg0 : 0 < g := by
        rcases Nat.eq_zero_or_pos g with h0 | h
        · exfalso; subst h0; norm_num at hnum; omega
        · exact h
      have hnum2 : num >>> 7 < 2 ^ (7 * g) := by
        rw [hsr]
        have hps : (2:Nat) ^ (7 * (g + 1)) = 2 ^ (7 * g) * 128 := by
          rw [show 7 * (g + 1) = 7 * g + 7 by ring, pow_add]; norm_num
        rw [hps] at hnum
        rw [Nat.div_lt_iff_lt_mul (by norm_num)]
        omega
      rw [writeLEB128Go, if_neg h7]
      simp only [List.length_cons]
      rw [ih (num >>> 7) hg0 hnum2]
      conv_rhs => rw [base128Groups]
      rw [if_neg (by omega), hsr]
      omega

/-- Byte `i` of the encoder's output: the `i`-th 7-bit group in the low
bits, with the continuation bit set unless it is the last byte. -/
theorem writeLEB128Go_getD (g : Nat) : ∀ num, 0 < g → num < 2 ^ (7 * g) →
    ∀ i, i < (writeLEB128Go g num).length →
    (writeLEB128Go g num).getD i 0
      = (if i + 1 < (writeLEB128Go g num).length then 0x80 else 0)
        ||| ((num >>> (7 * i)) &&& 0x7f) := by
  induction g with
  | zero => intro _ hg _; omega
  | succ g ih =>
    intro num _ hnum i hi
    have hsr : num >>> 7 = num / 128 := by
      simp [Nat.shiftRight_eq_div_pow]
    by_cases h7 : num >>> 7 = 0
    · have hsmall : num < 128 := by omega
      have hb : ¬ (num > 0x7f) := by omega
      rw [writeLEB128Go, if_pos h7] at hi ⊢
      simp only [List.length_singleton] at hi
      have hi0 : i = 0 := by omega
      subst hi0
      simp only [List.getD_cons_zero, List.length_singleton]
      rw [if_neg hb, if_neg (by omega), Nat.mul_zero, Nat.shiftRight_zero,
        Nat.zero_or]
    · have hbig : num ≥ 128 := by omega
      have hg0 : 0 < g := by
        rcases Nat.eq_zero_or_pos g with h0 | h
        · exfalso; subst h0; norm_num at hnum; omega
        · exact h
      have hnum2 : num >>> 7 < 2 ^ (7 * g) := by
        rw [hsr]
        have hps : (2:Nat) ^ (7 * (g + 1)) = 2 ^ (7 * g) * 128 := by
          rw [show 7 * (g + 1) = 7 * g + 7 by ring, pow_add]; norm_num
        rw [hps] at hnum
        rw [Nat.div_lt_iff_lt_mul (by norm_num)]
        omega
      have hpos := writeLEB128Go_length_pos hg0 (num >>> 7)
      rw [writeLEB128Go, if_neg h7] at hi ⊢
      simp only [List.length_cons] at hi ⊢
      cases i with
      | zero =>
        simp only [List.getD_cons_zero]
        rw [if_pos (by omega : num > 0x7f), if_pos (by omega), Nat.mul_zero,
          Nat.shiftRight_zero]
      | succ i =>
        simp only [List.getD_cons_succ]
        rw [ih (num >>> 7) hg0 hnum2 i (by omega)]
        have hshift : num >>> 7 >>> (7 * i) = num >>> (7 * (i + 1)) := by
          rw [← Nat.shiftRight_add]
          congr 1
          ring
        rw [hshift]
        congr 1
        by_cases hlast : i + 1 < (writeLEB128Go g (num >>> 7)).length
        · rw [if_pos hlast, if_pos (by omega)]
        · rw [if_neg hlast, if_neg (by omega)]

/-! ### Writer state-machine lemmas -/

/-- Every scalar write on a suspended handle fails the `checkReady` guard
before emitting anything: error out, state untouched. -/
theorem runScalar_not_ready (op : ScalarOp) {s : WState} (h : s.ready = false) :
    runScalar op s = (.error .logicError, s) := by
  cases op <;>
    simp [runScalar, writeTrueOp, writeFalseOp, writeBoolOp, writeNullOp,
      writeStringOp, writeFloatOp, writeDoubleOp, writeBinaryOp, writeIntOp,
      writeUIntOp, h]

/-! ### The claims -/

/-- C1: for INT64_MIN, `Writer::writeInt` emits the minus tag followed by
the varint of `2 ^ 63` (the magnitude `(uint64_t)INT64_MAX + 1` computed
in unsigned arithmetic), and `Reader::getInt` applied to exactly those
bytes returns INT64_MIN: `decode (encode INT64_MIN) = INT64_MIN`. -/
theorem claim1_int64_min_round_trip :
    writeInt (-(2 ^ 63)) = 0x2d :: writeLEB128 (2 ^ 63)
    ∧ getInt (writeInt (-(2 ^ 63))) = .ok (-(2 ^ 63), []) := by
  constructor
  · rw [writeInt, if_pos rfl]
  · have h := getInt_writeInt_neg (n := -(2 ^ 63)) (by norm_num) (by norm_num) []
    simpa using h

/-- C2: integers 0..9 encode as the single ASCII digit byte (for both
`writeInt` and `writeUInt`); 10 and above get the plus tag and a varint;
negatives above INT64_MIN get the minus tag and the varint of the
magnitude; and `writeUInt` never emits the minus tag. -/
theorem claim2_small_and_tagged_integers (n : Int) (m : Nat) :
    (0 ≤ n → n ≤ 9 → writeInt n = [(0x30 + n).toNat])
    ∧ (m ≤ 9 → writeUInt m = [0x30 + m])
    ∧ (10 ≤ n → writeInt n = 0x2b :: writeLEB128 n.toNat)
    ∧ (10 ≤ m → writeUInt m = 0x2b :: writeLEB128 m)
    ∧ (-(2 ^ 63) < n → n < 0 → writeInt n = 0x2d :: writeLEB128 (-n).toNat)
    ∧ (writeUInt m).head? ≠ some 0x2d := by
  refine ⟨fun h0 h9 => ?_, fun h9 => ?_, fun h10 => ?_, fun h10 => ?_,
    fun hmin hneg => ?_, ?_⟩
  · rw [writeInt, if_neg (by omega), if_neg (by omega), if_pos h9]
  · rw [writeUInt, if_pos h9]
  · rw [writeInt, if_neg (by omega), if_neg (by omega), if_neg (by omega)]
  · rw [writeUInt, if_neg (by omega)]
  · rw [writeInt, if_neg (by omega), if_pos hneg]
  · by_cases h9 : m ≤ 9
    · rw [writeUInt, if_pos h9]
      intro hcontra
      simp only [List.head?_cons, Option.some.injEq] at hcontra
      omega
    · rw [writeUInt, if_neg h9]
      simp

/-- C2 witness. -/
theorem claim2_witness :
    ((0 : Int) ≤ 5 ∧ (5 : Int) ≤ 9 ∧ writeInt 5 = [(0x30 + (5 : Int)).toNat])
    ∧ ((3 : Nat) ≤ 9 ∧ writeUInt 3 = [0x30 + 3])
    ∧ ((10 : Int) ≤ 300 ∧ writeInt 300 = 0x2b :: writeLEB128 (300 : Int).toNat)
    ∧ ((10 : Nat) ≤ 12 ∧ writeUInt 12 = 0x2b :: writeLEB128 12)
    ∧ (-(2 ^ 63) < (-7 : Int) ∧ (-7 : Int) < 0
        ∧ writeInt (-7) = 0x2d :: writeLEB128 (-(-7 : Int)).toNat)
    ∧ (writeUInt 3).head? ≠ some 0x2d :=
  ⟨⟨by norm_num, by norm_num,
    (claim2_small_and_tagged_integers 5 3).1 (by norm_num) (by norm_num)⟩,
   ⟨by norm_num, (claim2_small_and_tagged_integers 5 3).2.1 (by norm_num)⟩,
   ⟨by norm_num,
    (claim2_small_and_tagged_integers 300 12).2.2.1 (by norm_num)⟩,
   ⟨by norm_num,
    (claim2_small_and_tagged_integers 300 12).2.2.2.1 (by norm_num)⟩,
   ⟨by norm_num, by norm_num,
    (claim2_small_and_tagged_integers (-7) 3).2.2.2.2.1 (by norm_num)
      (by norm_num)⟩,
   (claim2_small_and_tagged_integers (-7) 3).2.2.2.2.2⟩

/-- C3: for every `uint64_t` value the varint encoder emits exactly one
byte per 7-bit group of the value (127 → 1, 128 → 2, 2^32-1 → 5,
2^64-1 → 10), each byte holding the next 7 value bits in its low bits
with the continuation bit set on every byte but the last, groups in
little-endian order. -/
theorem claim3_varint_groups (n : Nat) (h : n < 2 ^ 64) :
    (writeLEB128 n).length = base128Groups n
    ∧ (∀ i, i < (writeLEB128 n).length →
        (writeLEB128 n).getD i 0
          = (if i + 1 < (writeLEB128 n).length then 0x80 else 0)
            ||| ((n >>> (7 * i)) &&& 0x7f))
    ∧ (writeLEB128 127).length = 1
    ∧ (writeLEB128 128).length = 2
    ∧ (writeLEB128 (2 ^ 32 - 1)).length = 5
    ∧ (writeLEB128 (2 ^ 64 - 1)).length = 10 := by
  have h70 : n < 2 ^ (7 * 10) := by omega
  refine ⟨writeLEB128Go_length 10 n (by norm_num) h70,
    fun i hi => writeLEB128Go_getD 10 n (by norm_num) h70 i hi,
    by decide, by decide, by decide, by decide⟩

/-- C3 witness. -/
theorem claim3_witness :
    (300 : Nat) < 2 ^ 64
    ∧ (writeLEB128 300).length = base128Groups 300
    ∧ (1 : Nat) < (writeLEB128 300).length
    ∧ (writeLEB128 300).getD 1 0
        = (if 1 + 1 < (writeLEB128 300).length then 0x80 else 0)
          ||| ((300 >>> (7 * 1)) &&& 0x7f) :=
  ⟨by norm_num, (claim3_varint_groups 300 (by norm_num)).1, by decide,
   (claim3_varint_groups 300 (by norm_num)).2.1 1 (by decide)⟩

/-- C4: for every valid encoded value, of any type and nesting,
`Reader::skip` consumes exactly the same bytes as fully decoding the
value with the matching get routines does: both leave the cursor exactly
past the value's encoding. -/
theorem claim4_skip_equivalence (v : Value) (rest : Bytes) (fuel : Nat)
    (hv : valid v = true) (hf : (encode v).length ≤ fuel) :
    skipFuel fuel (encode v ++ rest) = .ok rest
    ∧ ∃ w, readValueFuel fuel (encode v ++ rest) = .ok (w, rest) :=
  ⟨(skip_encode_all fuel).1 v rest hv hf,
   (read_encode_all fuel).1 v rest hv hf⟩

/-- C4 witness: a depth-3 nested mixed-type value. -/
theorem claim4_witness :
    valid (.arr [.bool true,
      .obj [([0x6b], .str [0x61]), ([0x6b], .arr [.int (-300), .nil])],
      .uint 7]) = true
    ∧ (encode (.arr [.bool true,
        .obj [([0x6b], .str [0x61]), ([0x6b], .arr [.int (-300), .nil])],
        .uint 7])).length ≤ 50
    ∧ (skipFuel 50 (encode (.arr [.bool true,
        .obj [([0x6b], .str [0x61]), ([0x6b], .arr [.int (-300), .nil])],
        .uint 7]) ++ [0x4e]) = .ok [0x4e]
      ∧ ∃ w, readValueFuel 50 (encode (.arr [.bool true,
          .obj [([0x6b], .str [0x61]), ([0x6b], .arr [.int (-300), .nil])],
          .uint 7]) ++ [0x4e]) = .ok (w, [0x4e])) :=
  ⟨by decide, by decide,
   claim4_skip_equivalence _ [0x4e] 50 (by decide) (by decide)⟩

/-- C5: for every float32/float64 bit pattern — hence for every value
including infinities, NaNs and signed zero — decoding the writer's bytes
reconstructs the identical IEEE754 bit pattern, so the round trip is
bit-exact. -/
theorem claim5_float_bit_exact_round_trip (bits32 bits64 : Nat) (rest : Bytes)
    (h32 : bits32 < 2 ^ 32) (h64 : bits64 < 2 ^ 64) :
    getFloat (writeFloat bits32 ++ rest) = .ok (bits32, rest)
    ∧ getDouble (writeDouble bits64 ++ rest) = .ok (bits64, rest) :=
  ⟨getFloat_writeFloat h32 rest, getDouble_writeDouble h64 rest⟩

/-- C5 witness: float +infinity (0x7f800000) and double negative zero
(0x8000000000000000); a second application covers a double quiet NaN
(0x7ff8000000000001) and float32 negative infinity packing. -/
theorem claim5_witness :
    ((0x7f800000 : Nat) < 2 ^ 32 ∧ (0x8000000000000000 : Nat) < 2 ^ 64
      ∧ getFloat (writeFloat 0x7f800000 ++ []) = .ok (0x7f800000, [])
      ∧ getDouble (writeDouble 0x8000000000000000 ++ [])
          = .ok (0x8000000000000000, []))
    ∧ ((0xff800000 : Nat) < 2 ^ 32 ∧ (0x7ff8000000000001 : Nat) < 2 ^ 64
      ∧ getFloat (writeFloat 0xff800000 ++ []) = .ok (0xff800000, [])
      ∧ getDouble (writeDouble 0x7ff8000000000001 ++ [])
          = .ok (0x7ff8000000000001, [])) :=
  ⟨⟨by norm_num, by norm_num,
    (claim5_float_bit_exact_round_trip 0x7f800000 0x8000000000000000 []
      (by norm_num) (by norm_num)).1,
    (claim5_float_bit_exact_round_trip 0x7f800000 0x8000000000000000 []
      (by norm_num) (by norm_num)).2⟩,
   ⟨by norm_num, by norm_num,
    (claim5_float_bit_exact_round_trip 0xff800000 0x7ff8000000000001 []
      (by norm_num) (by norm_num)).1,
    (claim5_float_bit_exact_round_trip 0xff800000 0x7ff8000000000001 []
      (by norm_num) (by norm_num)).2⟩⟩

/-- C6: any scalar write invoked on a Writer handle that is suspended
because an array or object scope opened from it is still active fails
with `LogicError`, a distinct error kind from `ParseError`. -/
theorem claim6_scalar_write_in_open_scope (op : ScalarOp) (s : WState)
    (h : s.ready = true) :
    (writeArrayOp (runScalar op) s).1 = .error .logicError
    ∧ (writeObjectOp (runScalar op) s).1 = .error .logicError
    ∧ ∀ msg, Err.logicError ≠ Err.parseError msg := by
  refine ⟨?_, ?_, fun msg => by simp⟩
  · rw [writeArrayOp, if_neg (by simp [h]),
      runScalar_not_ready op (s := ⟨s.out ++ [0x5b], false⟩) rfl]
  · rw [writeObjectOp, if_neg (by simp [h]),
      runScalar_not_ready op (s := ⟨s.out ++ [0x7b], false⟩) rfl]

/-- C6 witness: the repository test scenario (`writeInt 10` on the
suspended outer writer). -/
theorem claim6_witness :
    (WState.mk [] true).ready = true
    ∧ (writeArrayOp (runScalar (.wInt 10)) ⟨[], true⟩).1 = .error .logicError
    ∧ (writeObjectOp (runScalar (.wInt 10)) ⟨[], true⟩).1 = .error .logicError
    ∧ Err.logicError ≠ Err.parseError "Unexpected EOF" :=
  ⟨rfl, (claim6_scalar_write_in_open_scope (.wInt 10) ⟨[], true⟩ rfl).1,
   (claim6_scalar_write_in_open_scope (.wInt 10) ⟨[], true⟩ rfl).2.1,
   (claim6_scalar_write_in_open_scope (.wInt 10) ⟨[], true⟩ rfl).2.2
     "Unexpected EOF"⟩

/-- C7: a stream truncated right after the array-open tag is classified
as an array, offers no element (`hasNext` is false), and fails with a
ParseError — produced at the attempt to read the closer (and the generic
skip fails the same way). -/
theorem claim7_truncated_array_parse_error :
    getType [0x5b] = .ok .array
    ∧ arrayHasNext ([] : Bytes) = false
    ∧ getArrayOp (fun input => .ok input) [0x5b]
        = .error (.parseError "Unexpected EOF")
    ∧ skipFuel 2 [0x5b] = .error (.parseError "Unexpected EOF") :=
  ⟨rfl, rfl, rfl, rfl⟩

/-- C8 counterexample: the claim says the terminator is written exactly
once per opened scope "even when the scoped callback exits early", but
`Writer::writeArray` emits `']'` only after a normal return of the
callback — when the callback exits via an exception, the exception
propagates first and no `']'` is ever written: the scope's output is
just the opener. -/
theorem claim8_counterexample :
    writeArrayOp (fun s1 => (.error .logicError, s1)) ⟨[], true⟩
      = (.error .logicError, ⟨[0x5b], false⟩)
    ∧ 0x5d ∉ (writeArrayOp (fun s1 => (.error .logicError, s1))
        ⟨[], true⟩).2.out := by
  constructor
  · rfl
  · decide

/-- C8 as amended: when the scoped callback returns normally, the
matching terminator is emitted (write side) or consumed (read side)
exactly once, immediately after the callback's activity; when the
callback exits exceptionally, the exception propagates and the
terminator is not written/consumed at all. -/
theorem claim8_terminator_once (func : WState → Except Err Unit × WState)
    (rfunc : Bytes → Except Err Bytes) (s : WState) (input : Bytes)
    (h : s.ready = true) :
    (∀ s2, func ⟨s.out ++ [0x5b], false⟩ = (.ok (), s2) →
      writeArrayOp func s = (.ok (), ⟨s2.out ++ [0x5d], true⟩))
    ∧ (∀ e s2, func ⟨s.out ++ [0x5b], false⟩ = (.error e, s2) →
      writeArrayOp func s = (.error e, s2))
    ∧ (∀ s2, func ⟨s.out ++ [0x7b], false⟩ = (.ok (), s2) →
      writeObjectOp func s = (.ok (), ⟨s2.out ++ [0x7d], true⟩))
    ∧ (∀ e s2, func ⟨s.out ++ [0x7b], false⟩ = (.error e, s2) →
      writeObjectOp func s = (.error e, s2))
    ∧ (∀ rest3, rfunc input = .ok (0x5d :: rest3) →
      getArrayOp rfunc (0x5b :: input) = .ok rest3)
    ∧ (∀ e, rfunc input = .error e →
      getArrayOp rfunc (0x5b :: input) = .error e)
    ∧ (∀ rest3, rfunc input = .ok (0x7d :: rest3) →
      getObjectOp rfunc (0x7b :: input) = .ok rest3)
    ∧ (∀ e, rfunc input = .error e →
      getObjectOp rfunc (0x7b :: input) = .error e) := by
  refine ⟨fun s2 hf => ?_, fun e s2 hf => ?_, fun s2 hf => ?_,
    fun e s2 hf => ?_, fun rest3 hf => ?_, fun e hf => ?_,
    fun rest3 hf => ?_, fun e hf => ?_⟩
  · rw [writeArrayOp, if_neg (by simp [h]), hf]
  · rw [writeArrayOp, if_neg (by simp [h]), hf]
  · rw [writeObjectOp, if_neg (by simp [h]), hf]
  · rw [writeObjectOp, if_neg (by simp [h]), hf]
  · simp only [getArrayOp, next, hf]
    rfl
  · simp only [getArrayOp, next, hf]
    rfl
  · simp only [getObjectOp, next, hf]
    rfl
  · simp only [getObjectOp, next, hf]
    rfl

/-- C8 witness. -/
theorem claim8_witness :
    (WState.mk [] true).ready = true
    ∧ writeArrayOp (fun s1 => (.ok (), s1)) ⟨[], true⟩
        = (.ok (), ⟨[0x5b, 0x5d], true⟩)
    ∧ writeObjectOp (fun s1 => (.error .logicError, s1)) ⟨[], true⟩
        = (.error .logicError, ⟨[0x7b], false⟩)
    ∧ getArrayOp (fun b => .ok b) [0x5b, 0x5d] = .ok []
    ∧ getObjectOp (fun b => .ok b) [0x7b, 0x7d] = .ok []
    ∧ getObjectOp (fun _ => .error (.parseError "Unexpected EOF")) [0x7b]
        = .error (.parseError "Unexpected EOF") :=
  ⟨rfl,
   (claim8_terminator_once (fun s1 => (.ok (), s1)) (fun b => .ok b)
     ⟨[], true⟩ [0x5d] rfl).1 ⟨[0x5b], false⟩ rfl,
   (claim8_terminator_once (fun s1 => (.error .logicError, s1))
     (fun b => .ok b) ⟨[], true⟩ [0x5d] rfl).2.2.2.1 .logicError
     ⟨[0x7b], false⟩ rfl,
   (claim8_terminator_once (fun s1 => (.ok (), s1)) (fun b => .ok b)
     ⟨[], true⟩ [0x5d] rfl).2.2.2.2.1 [] rfl,
   (claim8_terminator_once (fun s1 => (.ok (), s1)) (fun b => .ok b)
     ⟨[], true⟩ [0x7d] rfl).2.2.2.2.2.2.1 [] rfl,
   (claim8_terminator_once (fun s1 => (.ok (), s1))
     (fun _ => .error (.parseError "Unexpected EOF")) ⟨[], true⟩ []
     rfl).2.2.2.2.2.2.2 (.parseError "Unexpected EOF") rfl⟩

/-- C9 counterexample: the claim says a write call that fails with
`LogicError` has emitted nothing, but `writeArray` with a callback that
misuses the suspended parent handle (the repository test scenario)
propagates the callback's `LogicError` after the opening `'['` has
already been emitted by that same `writeArray` call. -/
theorem claim9_counterexample :
    (writeArrayOp (runScalar (.wInt 10)) ⟨[], true⟩).1 = .error .logicError
    ∧ (writeArrayOp (runScalar (.wInt 10)) ⟨[], true⟩).2.out = [0x5b] := by
  constructor
  · rfl
  · rfl

/-- C9 as amended: every Writer operation runs its `checkReady` guard
before emitting any byte, so an operation invoked on a suspended handle
(a usage error) fails with `LogicError` leaving the output — indeed the
whole writer state — unchanged; only a container write whose callback
itself fails can have emitted its opening tag before the failure. -/
theorem claim9_ready_check_first (op : WOp) (s : WState)
    (h : s.ready = false) : runWOp op s = (.error .logicError, s) := by
  cases op with
  | scalar sc => exact runScalar_not_ready sc h
  | wArray func => simp [runWOp, writeArrayOp, h]
  | wObject func => simp [runWOp, writeObjectOp, h]

/-- C9 witness. -/
theorem claim9_witness :
    (WState.mk [0x54] false).ready = false
    ∧ runWOp (.scalar (.wBool true)) ⟨[0x54], false⟩
        = (.error .logicError, ⟨[0x54], false⟩) :=
  ⟨rfl, claim9_ready_check_first (.scalar (.wBool true)) ⟨[0x54], false⟩ rfl⟩

/-- C10: `Reader::getInt` never rejects an out-of-signed-range magnitude:
a plus tag with magnitude `m` yields `m` converted to `int64_t` modulo
`2 ^ 64` (negative whenever `m ≥ 2 ^ 63`), and a minus tag yields the
two's-complement value of `-m` modulo `2 ^ 64`. -/
theorem claim10_silent_wrapping (m : Nat) (hm : m < 2 ^ 64) :
    getInt (0x2b :: writeLEB128 m) = .ok (toInt64 m, [])
    ∧ (2 ^ 63 ≤ m → toInt64 m < 0)
    ∧ getInt (0x2d :: writeLEB128 m) = .ok (toInt64 ((2 ^ 64 - m) % 2 ^ 64), []) := by
  refine ⟨?_, fun h63 => ?_, ?_⟩
  · have h := getInt_plus hm []
    simpa using h
  · rw [toInt64, if_neg (by omega)]
    have : (m : Int) < 2 ^ 64 := by exact_mod_cast hm
    omega
  · have h := getInt_minus hm []
    simpa using h

/-- C10 witness: the maximal magnitude `2 ^ 64 - 1`. -/
theorem claim10_witness :
    (2 ^ 64 - 1 : Nat) < 2 ^ 64
    ∧ getInt (0x2b :: writeLEB128 (2 ^ 64 - 1))
        = .ok (toInt64 (2 ^ 64 - 1), [])
    ∧ toInt64 (2 ^ 64 - 1) < 0
    ∧ getInt (0x2d :: writeLEB128 (2 ^ 64 - 1))
        = .ok (toInt64 ((2 ^ 64 - (2 ^ 64 - 1)) % 2 ^ 64), []) :=
  ⟨by norm_num, (claim10_silent_wrapping (2 ^ 64 - 1) (by norm_num)).1,
   (claim10_silent_wrapping (2 ^ 64 - 1) (by norm_num)).2.1 (by norm_num),
   (claim10_silent_wrapping (2 ^ 64 - 1) (by norm_num)).2.2⟩
end NBON
